import Mathlib

/-!
Verification of the text-manipulation core of the better-godot-mcp repository:
the path sandbox (`safeResolve` in src/tools/helpers/paths.ts), the value codec
(`parseGodotValue` / `toGodotValue` in src/tools/helpers/godot-types.ts), the
scene parser and mutators (src/tools/helpers/scene-parser.ts.bak) and the
project-settings store (src/tools/helpers/project-settings.ts).

The TypeScript code works on JavaScript strings.  We embed strings as
`List Char` (the type alias `Chars`) and model each of the JavaScript string
operations the source uses (`split`, `join`, `trim`, `startsWith`, `endsWith`,
`includes`, template literals) as executable Lean functions on `Chars`.
Top-level program functions are also exposed on `String` via `.data`.
-/

set_option maxHeartbeats 1000000

/-- Characters of a JavaScript string. -/
abbrev Chars := List Char

/-- JavaScript `s.split(sep)` for a one-character separator: splitting the
empty string yields `[""]`, separators at the ends yield empty pieces. -/
def splitChar (c : Char) : Chars → List Chars
  | [] => [[]]
  | x :: xs =>
    if x = c then [] :: splitChar c xs
    else
      match splitChar c xs with
      | [] => [[x]]
      | p :: ps => (x :: p) :: ps

/-- JavaScript `parts.join(sep)` for a one-character separator. -/
def joinChar (c : Char) : List Chars → Chars
  | [] => []
  | p :: ps =>
    match ps with
    | [] => p
    | _ :: _ => p ++ c :: joinChar c ps

theorem splitChar_ne_nil (c : Char) (s : Chars) : splitChar c s ≠ [] := by
  cases s with
  | nil => simp [splitChar]
  | cons x xs =>
    simp only [splitChar]
    by_cases h : x = c
    · simp [h]
    · simp only [h, if_false]
      cases splitChar c xs <;> simp

theorem joinChar_cons_cons (c : Char) (p q : Chars) (ps : List Chars) :
    joinChar c (p :: q :: ps) = p ++ c :: joinChar c (q :: ps) := rfl

theorem splitChar_cons_eq (c x : Char) (xs p : Chars) (ps : List Chars)
    (hps : splitChar c xs = p :: ps) :
    splitChar c (x :: xs) = if x = c then [] :: p :: ps else (x :: p) :: ps := by
  by_cases h : x = c
  · simp only [splitChar, h, if_pos rfl, hps]
  · simp only [splitChar, h, if_false, hps]

theorem splitChar_dest (c : Char) (xs : Chars) :
    ∃ p ps, splitChar c xs = p :: ps := by
  cases hsp : splitChar c xs with
  | nil => exact absurd hsp (splitChar_ne_nil c xs)
  | cons p ps => exact ⟨p, ps, rfl⟩

/-- Joining the pieces of a split recovers the original string. -/
theorem joinChar_splitChar (c : Char) (s : Chars) : joinChar c (splitChar c s) = s := by
  induction s with
  | nil => rfl
  | cons x xs ih =>
    obtain ⟨p, ps, hps⟩ := splitChar_dest c xs
    rw [hps] at ih
    rw [splitChar_cons_eq c x xs p ps hps]
    by_cases h : x = c
    · rw [if_pos h, joinChar_cons_cons]
      simp [ih, h]
    · rw [if_neg h]
      cases ps with
      | nil =>
        simp only [joinChar] at ih ⊢
        rw [ih]
      | cons q qs =>
        rw [joinChar_cons_cons] at ih ⊢
        simp [← ih]

/-- Every piece produced by a split is free of the separator character. -/
theorem splitChar_sep_not_mem (c : Char) (s : Chars) :
    ∀ p ∈ splitChar c s, c ∉ p := by
  induction s with
  | nil =>
    intro p hp
    simp only [splitChar, List.mem_singleton] at hp
    simp [hp]
  | cons x xs ih =>
    intro p hp
    obtain ⟨q, qs, hps⟩ := splitChar_dest c xs
    rw [splitChar_cons_eq c x xs q qs hps] at hp
    by_cases h : x = c
    · rw [if_pos h] at hp
      rcases List.mem_cons.mp hp with hp | hp
      · simp [hp]
      · exact ih p (by rw [hps]; exact hp)
    · rw [if_neg h] at hp
      rcases List.mem_cons.mp hp with hp | hp
      · subst hp
        intro hmem
        rcases List.mem_cons.mp hmem with h1 | h1
        · exact h h1.symm
        · exact ih q (by simp [hps]) h1
      · exact ih p (by simp [hps, hp])

/-- Splitting a separator-free string is the identity (one piece). -/
theorem splitChar_of_not_mem (c : Char) (p : Chars) (h : c ∉ p) :
    splitChar c p = [p] := by
  induction p with
  | nil => rfl
  | cons x xs ih =>
    have hx : x ≠ c := fun hxc => h (by simp [hxc])
    have hxs := ih (fun hm => h (by simp [hm]))
    rw [splitChar_cons_eq c x xs xs [] hxs, if_neg hx]

/-- Splitting distributes over a separator between a clean piece and a rest. -/
theorem splitChar_append_sep (c : Char) (p r : Chars) (h : c ∉ p) :
    splitChar c (p ++ c :: r) = p :: splitChar c r := by
  induction p with
  | nil =>
    obtain ⟨q, qs, hps⟩ := splitChar_dest c r
    simp only [List.nil_append]
    rw [splitChar_cons_eq c c r q qs hps, if_pos rfl, hps]
  | cons x xs ih =>
    have hx : x ≠ c := fun hxc => h (by simp [hxc])
    have hxs := ih (fun hm => h (by simp [hm]))
    obtain ⟨q, qs, hps⟩ := splitChar_dest c r
    rw [hps] at hxs
    rw [List.cons_append, splitChar_cons_eq c x (xs ++ c :: r) xs (q :: qs) hxs,
      if_neg hx, hps]

/-- Splitting is a left inverse of joining on clean nonempty piece lists. -/
theorem splitChar_joinChar (c : Char) (ps : List Chars) (hne : ps ≠ [])
    (h : ∀ p ∈ ps, c ∉ p) : splitChar c (joinChar c ps) = ps := by
  induction ps with
  | nil => exact absurd rfl hne
  | cons p rest ih =>
    cases rest with
    | nil =>
      simp only [joinChar]
      exact splitChar_of_not_mem c p (h p (by simp))
    | cons q qs =>
      rw [joinChar_cons_cons]
      rw [splitChar_append_sep c p _ (h p (by simp))]
      rw [ih (by simp) (fun x hx => h x (by simp [hx]))]

/-- Whitespace for the purposes of JavaScript `trim` (the ASCII part; the
claims only exercise ASCII input). -/
def isJsWs (c : Char) : Bool :=
  c = ' ' || c = '\t' || c = '\n' || c = '\r' || c = '\x0b' || c = '\x0c'

/-- JavaScript `s.trim()`. -/
def jsTrim (s : Chars) : Chars :=
  ((s.dropWhile isJsWs).reverse.dropWhile isJsWs).reverse

/-- JavaScript `s.startsWith(p)`. -/
def jsStartsWith (s p : Chars) : Bool := p.isPrefixOf s

/-- JavaScript `s.endsWith(p)`. -/
def jsEndsWith (s p : Chars) : Bool := p.isSuffixOf s

/-- JavaScript `s.includes(p)`: substring containment. -/
def containsSub (pat : Chars) : Chars → Bool
  | [] => pat.isEmpty
  | c :: rest => pat.isPrefixOf (c :: rest) || containsSub pat rest

theorem containsSub_iff_infix (pat s : Chars) :
    containsSub pat s = true ↔ pat <:+: s := by
  induction s with
  | nil =>
    simp [containsSub, List.isEmpty_iff, List.infix_nil]
  | cons c rest ih =>
    simp only [containsSub, Bool.or_eq_true, List.isPrefixOf_iff_prefix, ih]
    rw [List.infix_cons_iff]

/-! ## Path sandbox

`safeResolve` from src/tools/helpers/paths.ts.  The source calls Node's
`path.resolve`, which (on POSIX, `sep = "/"`) joins its arguments right to
left until an absolute path forms, prepends the working directory if none
does, and then normalizes: empty and `.` components are dropped, `..` pops
the previous component (and is dropped at the root).  We model `resolve`
explicitly; the working directory is an explicit `cwd` argument. -/

/-- Node `path.isAbsolute` on POSIX: the path starts with a slash. -/
def isAbsolutePath (p : Chars) : Bool :=
  match p with
  | '/' :: _ => true
  | _ => false

/-- One step of Node path normalization over components. -/
def normStep (acc : List Chars) (comp : Chars) : List Chars :=
  if comp = [] || comp = ['.'] then acc
  else if comp = ['.', '.'] then acc.dropLast
  else acc ++ [comp]

/-- Node path normalization of a component list (absolute paths: `..` at the
root is dropped). -/
def normComps (cs : List Chars) : List Chars := cs.foldl normStep []

/-- Render a normalized component list as an absolute path string. -/
def absPathString (cs : List Chars) : Chars := '/' :: joinChar '/' cs

/-- Node `path.resolve` for a single already-absolute-or-joined path. -/
def resolveOne (p : Chars) : Chars := absPathString (normComps (splitChar '/' p))

/-- Node `path.resolve(p)` with working directory `cwd`. -/
def nodeResolve1 (cwd p : Chars) : Chars :=
  if isAbsolutePath p then resolveOne p else resolveOne (cwd ++ '/' :: p)

/-- Node `path.resolve(base, rel)` with working directory `cwd`. -/
def nodeResolve2 (cwd base rel : Chars) : Chars :=
  if isAbsolutePath rel then resolveOne rel else nodeResolve1 cwd (base ++ '/' :: rel)

/-- Append a trailing separator unless one is already present (the
`baseWithSep` / `pathWithSep` computation of `safeResolve`). -/
def addSep (p : Chars) : Chars := if jsEndsWith p ['/'] then p else p ++ ['/']

/-- The `safeResolve` function of src/tools/helpers/paths.ts, lines 12-31:
resolve the base and the user path, then reject unless the resolved path is
the resolved base itself or lies under it (comparison after appending a
separator to both sides, so sibling names that merely share a string prefix
do not pass).  Throwing `GodotMCPError` is modelled as `Except.error` with
the message text. -/
def safeResolveL (cwd basePath relativePath : Chars) : Except Chars Chars :=
  let resolvedBase := nodeResolve1 cwd basePath
  let resolvedPath := nodeResolve2 cwd resolvedBase relativePath
  let baseWithSep := addSep resolvedBase
  let pathWithSep := addSep resolvedPath
  if resolvedPath ≠ resolvedBase ∧ ¬ (jsStartsWith pathWithSep baseWithSep = true) then
    Except.error ("Path traversal detected: ".data ++ relativePath)
  else
    Except.ok resolvedPath

/-- String-level wrapper of `safeResolveL`. -/
def safeResolve (cwd basePath relativePath : String) : Except String String :=
  match safeResolveL cwd.data basePath.data relativePath.data with
  | Except.error e => Except.error (String.mk e)
  | Except.ok r => Except.ok (String.mk r)

/-- Path components of a path string, for the spec-side comparison: the
slash-separated pieces with empties dropped. -/
def pathComponents (p : Chars) : List Chars :=
  (splitChar '/' p).filter (fun c => c ≠ [])

/-- Spec-side containment: `root` is `p` itself or a path-component ancestor
of `p` exactly when the component list of `root` is a prefix of that of `p`. -/
def componentAncestorOrSelf (root p : Chars) : Prop :=
  pathComponents root <+: pathComponents p

instance (root p : Chars) : Decidable (componentAncestorOrSelf root p) := by
  unfold componentAncestorOrSelf
  infer_instance

/-- Well-formedness of a path component produced by Node normalization:
nonempty, slash-free, and neither `.` nor `..`. -/
def goodComp (c : Chars) : Prop :=
  c ≠ [] ∧ '/' ∉ c ∧ c ≠ ['.'] ∧ c ≠ ['.', '.']

theorem goodComp_of_normStep (acc : List Chars) (comp : Chars)
    (hacc : ∀ c ∈ acc, goodComp c) (hcomp : '/' ∉ comp) :
    ∀ c ∈ normStep acc comp, goodComp c := by
  intro c hc
  unfold normStep at hc
  by_cases h1 : comp = [] ∨ comp = ['.']
  · rw [if_pos (by simpa using h1)] at hc
    exact hacc c hc
  · rw [if_neg (by simpa using h1)] at hc
    push_neg at h1
    by_cases h2 : comp = ['.', '.']
    · rw [if_pos h2] at hc
      exact hacc c (List.dropLast_sublist acc |>.mem hc)
    · rw [if_neg h2] at hc
      rcases List.mem_append.mp hc with h | h
      · exact hacc c h
      · rw [List.mem_singleton] at h
        subst h
        exact ⟨h1.1, hcomp, h1.2, h2⟩

theorem goodComp_foldl (cs : List Chars) :
    ∀ acc, (∀ c ∈ acc, goodComp c) → (∀ c ∈ cs, '/' ∉ c) →
      ∀ c ∈ cs.foldl normStep acc, goodComp c := by
  induction cs with
  | nil => intro acc hacc _ c hc; exact hacc c hc
  | cons p ps ih =>
    intro acc hacc hcs c hc
    rw [List.foldl_cons] at hc
    exact ih (normStep acc p)
      (goodComp_of_normStep acc p hacc (hcs p (by simp)))
      (fun x hx => hcs x (by simp [hx])) c hc

theorem goodComp_normComps (s : Chars) :
    ∀ c ∈ normComps (splitChar '/' s), goodComp c :=
  goodComp_foldl _ [] (by simp) (splitChar_sep_not_mem '/' s)

/-- Already-normalized components pass through `normStep` untouched. -/
theorem foldl_normStep_good (cs : List Chars) :
    ∀ acc, (∀ c ∈ cs, goodComp c) → cs.foldl normStep acc = acc ++ cs := by
  induction cs with
  | nil => intro acc _; simp
  | cons p ps ih =>
    intro acc h
    obtain ⟨h1, _, h3, h4⟩ := h p (by simp)
    rw [List.foldl_cons]
    have hstep : normStep acc p = acc ++ [p] := by
      unfold normStep
      rw [if_neg (by simp [h1, h3]), if_neg h4]
    rw [hstep, ih (acc ++ [p]) (fun x hx => h x (by simp [hx]))]
    simp

/-- Components of the rendered absolute path of a good component list. -/
theorem splitChar_absPathString (cs : List Chars) (hne : cs ≠ [])
    (h : ∀ c ∈ cs, goodComp c) :
    splitChar '/' (absPathString cs) = [] :: cs := by
  unfold absPathString
  obtain ⟨p, ps, hps⟩ := splitChar_dest '/' (joinChar '/' cs)
  rw [splitChar_cons_eq '/' '/' _ p ps hps, if_pos rfl, ← hps,
    splitChar_joinChar '/' cs hne (fun c hc => (h c hc).2.1)]

/-- Re-normalizing a rendered normalized path gives the components back. -/
theorem normComps_absPathString (cs : List Chars) (h : ∀ c ∈ cs, goodComp c) :
    normComps (splitChar '/' (absPathString cs)) = cs := by
  by_cases hne : cs = []
  · subst hne
    rfl
  · rw [splitChar_absPathString cs hne h]
    unfold normComps
    rw [List.foldl_cons]
    have : normStep [] [] = [] := rfl
    rw [this, foldl_normStep_good cs [] h]
    simp

/-- Splitting a rendered path joined with a slash and further text. -/
theorem splitChar_joinChar_append (cs : List Chars) (r : Chars) (hne : cs ≠ [])
    (h : ∀ p ∈ cs, '/' ∉ p) :
    splitChar '/' (joinChar '/' cs ++ '/' :: r) = cs ++ splitChar '/' r := by
  induction cs with
  | nil => exact absurd rfl hne
  | cons p ps ih =>
    cases ps with
    | nil =>
      simp only [joinChar, List.cons_append, List.nil_append]
      rw [splitChar_append_sep '/' p r (h p (by simp))]
    | cons q qs =>
      rw [joinChar_cons_cons, List.append_assoc, List.cons_append]
      rw [splitChar_append_sep '/' p _ (h p (by simp))]
      rw [ih (by simp) (fun x hx => h x (by simp [hx]))]
      rfl

/-- Normalizing a rendered path extended below the rendered components just
keeps folding the extension onto the components. -/
theorem normComps_absPathString_append (cs : List Chars) (r : Chars)
    (h : ∀ c ∈ cs, goodComp c) :
    normComps (splitChar '/' (absPathString cs ++ '/' :: r)) =
      (splitChar '/' r).foldl normStep cs := by
  by_cases hne : cs = []
  · subst hne
    show normComps (splitChar '/' ('/' :: '/' :: r)) = _
    obtain ⟨p, ps, hps⟩ := splitChar_dest '/' r
    obtain ⟨p2, ps2, hps2⟩ := splitChar_dest '/' ('/' :: r)
    rw [splitChar_cons_eq '/' '/' _ p2 ps2 hps2, if_pos rfl, ← hps2]
    rw [splitChar_cons_eq '/' '/' _ p ps hps, if_pos rfl, ← hps]
    unfold normComps
    rw [List.foldl_cons, List.foldl_cons]
    rfl
  · show normComps (splitChar '/' ('/' :: (joinChar '/' cs ++ '/' :: r))) = _
    obtain ⟨p, ps, hps⟩ :=
      splitChar_dest '/' (joinChar '/' cs ++ '/' :: r)
    rw [splitChar_cons_eq '/' '/' _ p ps hps, if_pos rfl, ← hps]
    rw [splitChar_joinChar_append cs r hne (fun c hc => (h c hc).2.1)]
    unfold normComps
    rw [List.foldl_cons, List.foldl_append]
    have h1 : normStep [] [] = [] := rfl
    rw [h1, foldl_normStep_good cs [] h]
    simp

/-- The rendered path of a nonempty good component list does not end in a
separator. -/
theorem getLast?_joinChar (cs : List Chars) (hne : cs ≠ [])
    (h : ∀ c ∈ cs, goodComp c) :
    ∃ d, (joinChar '/' cs).getLast? = some d ∧ d ≠ '/' := by
  induction cs with
  | nil => exact absurd rfl hne
  | cons p ps ih =>
    cases ps with
    | nil =>
      obtain ⟨h1, h2, _, _⟩ := h p (by simp)
      refine ⟨p.getLast h1, ?_, ?_⟩
      · simpa [joinChar] using List.getLast?_eq_getLast p h1
      · intro hd
        exact h2 (hd ▸ List.getLast_mem h1)
    | cons q qs =>
      obtain ⟨d, hd, hdne⟩ := ih (by simp) (fun x hx => h x (by simp [hx]))
      refine ⟨d, ?_, hdne⟩
      rw [joinChar_cons_cons]
      have : p ++ '/' :: joinChar '/' (q :: qs) =
          (p ++ ['/']) ++ joinChar '/' (q :: qs) := by simp
      rw [this, List.getLast?_append, hd]
      rfl

/-- Render components each followed by a separator (`a/b/` for `[a,b]`). -/
def compSlash : List Chars → Chars
  | [] => []
  | c :: cs => c ++ '/' :: compSlash cs

theorem joinChar_append_slash (cs : List Chars) (hne : cs ≠ []) :
    joinChar '/' cs ++ ['/'] = compSlash cs := by
  induction cs with
  | nil => exact absurd rfl hne
  | cons p ps ih =>
    cases ps with
    | nil => simp [joinChar, compSlash]
    | cons q qs =>
      rw [joinChar_cons_cons, compSlash]
      simp only [List.append_assoc, List.cons_append]
      rw [ih (by simp)]

/-- `addSep` of a rendered good component list is the slash-terminated
component rendering. -/
theorem addSep_absPathString (cs : List Chars) (h : ∀ c ∈ cs, goodComp c) :
    addSep (absPathString cs) = '/' :: compSlash cs := by
  by_cases hne : cs = []
  · subst hne
    rfl
  · obtain ⟨d, hd, hdne⟩ := getLast?_joinChar cs hne h
    have hends : jsEndsWith (absPathString cs) ['/'] = false := by
      unfold jsEndsWith
      rw [Bool.eq_false_iff]
      intro hsuf
      rw [List.isSuffixOf_iff_suffix] at hsuf
      obtain ⟨t, ht⟩ := hsuf
      have : (absPathString cs).getLast? = some '/' := by
        rw [← ht, List.getLast?_concat]
      unfold absPathString at this
      have h2 : ('/' :: joinChar '/' cs).getLast? = some d := by
        have hjoin : joinChar '/' cs ≠ [] := by
          intro hj
          rw [hj] at hd
          simp at hd
        rw [show ('/' :: joinChar '/' cs) = ['/'] ++ joinChar '/' cs from rfl,
          List.getLast?_append, hd]
        rfl
      rw [this] at h2
      exact hdne (Option.some.inj h2).symm
    unfold addSep
    rw [hends]
    simp only [Bool.false_eq_true, if_false]
    unfold absPathString
    rw [List.cons_append, joinChar_append_slash cs hne]

/-- One segment plus separator is prefix-compatible exactly componentwise. -/
theorem seg_append_prefix_iff (a b x y : Chars) (ha : '/' ∉ a) (hb : '/' ∉ b) :
    (a ++ '/' :: x <+: b ++ '/' :: y) ↔ a = b ∧ x <+: y := by
  induction a generalizing b with
  | nil =>
    cases b with
    | nil => simp
    | cons c bs =>
      simp only [List.nil_append, List.cons_append]
      constructor
      · intro hpre
        rw [List.cons_prefix_cons] at hpre
        exact absurd hpre.1.symm (fun hc => hb (by simp [hc]))
      · rintro ⟨hab, _⟩
        exact absurd hab (by simp)
  | cons c as ih =>
    cases b with
    | nil =>
      simp only [List.nil_append, List.cons_append]
      constructor
      · intro hpre
        rw [List.cons_prefix_cons] at hpre
        exact absurd hpre.1 (fun hc => ha (by simp [hc]))
      · rintro ⟨hab, _⟩
        exact absurd hab (by simp)
    | cons d bs =>
      simp only [List.cons_append, List.cons_prefix_cons]
      rw [ih bs (fun hm => ha (by simp [hm])) (fun hm => hb (by simp [hm]))]
      constructor
      · rintro ⟨hcd, hab, hxy⟩
        exact ⟨by simp [hcd, hab], hxy⟩
      · rintro ⟨hab, hxy⟩
        have h1 := List.cons.inj hab
        exact ⟨h1.1, h1.2, hxy⟩

/-- Slash-terminated renderings compare as prefixes exactly when the
component lists do. -/
theorem compSlash_prefix_iff (as bs : List Chars)
    (ha : ∀ c ∈ as, goodComp c) (hb : ∀ c ∈ bs, goodComp c) :
    (compSlash as <+: compSlash bs) ↔ as <+: bs := by
  induction as generalizing bs with
  | nil => simp [compSlash]
  | cons a as2 ih =>
    cases bs with
    | nil =>
      simp only [compSlash]
      constructor
      · intro hpre
        have hlen := List.IsPrefix.length_le hpre
        simp at hlen
      · intro hpre
        have hlen := List.IsPrefix.length_le hpre
        simp at hlen
    | cons b bs2 =>
      simp only [compSlash]
      rw [seg_append_prefix_iff a b _ _ (ha a (by simp)).2.1 (hb b (by simp)).2.1]
      rw [ih bs2 (fun c hc => ha c (by simp [hc])) (fun c hc => hb c (by simp [hc]))]
      rw [List.cons_prefix_cons]

/-- Rendering good component lists as absolute paths is injective. -/
theorem absPathString_inj (as bs : List Chars)
    (ha : ∀ c ∈ as, goodComp c) (hb : ∀ c ∈ bs, goodComp c)
    (h : absPathString as = absPathString bs) : as = bs := by
  have h2 : addSep (absPathString as) = addSep (absPathString bs) := by rw [h]
  rw [addSep_absPathString as ha, addSep_absPathString bs hb] at h2
  have h3 := List.cons.inj h2
  have h4 : as <+: bs := by
    rw [← compSlash_prefix_iff as bs ha hb, h3.2]
  have h5 : bs <+: as := by
    rw [← compSlash_prefix_iff bs as hb ha, h3.2]
  exact h4.eq_of_length (Nat.le_antisymm h4.length_le h5.length_le)

/-- Components of the resolved form of a single path (Node `resolve(p)`). -/
def resolveComps1 (cwd p : Chars) : List Chars :=
  normComps (splitChar '/' (if isAbsolutePath p then p else cwd ++ '/' :: p))

theorem nodeResolve1_eq_absPathString (cwd p : Chars) :
    nodeResolve1 cwd p = absPathString (resolveComps1 cwd p) := by
  unfold nodeResolve1 resolveComps1 resolveOne
  by_cases h : isAbsolutePath p <;> simp [h]

/-- Components of the resolved form of a path resolved against a base. -/
def resolveComps2 (cwd base rel : Chars) : List Chars :=
  if isAbsolutePath rel then normComps (splitChar '/' rel)
  else resolveComps1 cwd (base ++ '/' :: rel)

theorem nodeResolve2_eq_absPathString (cwd base rel : Chars) :
    nodeResolve2 cwd base rel = absPathString (resolveComps2 cwd base rel) := by
  unfold nodeResolve2 resolveComps2 resolveOne
  by_cases h : isAbsolutePath rel
  · simp [h]
  · simp [h, nodeResolve1_eq_absPathString]

theorem resolveComps1_good (cwd p : Chars) :
    ∀ c ∈ resolveComps1 cwd p, goodComp c := by
  unfold resolveComps1
  exact goodComp_normComps _

theorem resolveComps2_good (cwd base rel : Chars) :
    ∀ c ∈ resolveComps2 cwd base rel, goodComp c := by
  unfold resolveComps2
  by_cases h : isAbsolutePath rel
  · simp only [h, if_pos]
    exact goodComp_normComps _
  · simp only [h, Bool.false_eq_true, if_false]
    exact resolveComps1_good cwd _

/-- Characterization of `safeResolveL`: it rejects exactly when the resolved
base components are not a prefix of the resolved target components, and
otherwise returns the rendered resolved target. -/
theorem safeResolveL_char (cwd b r : Chars) :
    safeResolveL cwd b r =
      if resolveComps1 cwd b <+: resolveComps2 cwd (nodeResolve1 cwd b) r
      then Except.ok (absPathString (resolveComps2 cwd (nodeResolve1 cwd b) r))
      else Except.error ("Path traversal detected: ".data ++ r) := by
  unfold safeResolveL
  dsimp only
  rw [nodeResolve1_eq_absPathString cwd b]
  rw [nodeResolve2_eq_absPathString]
  set BCS := resolveComps1 cwd b with hBCS
  set TCS := resolveComps2 cwd (absPathString BCS) r with hTCS
  have hbgood : ∀ c ∈ BCS, goodComp c := resolveComps1_good cwd b
  have htgood : ∀ c ∈ TCS, goodComp c := resolveComps2_good cwd (absPathString BCS) r
  have hstart : jsStartsWith (addSep (absPathString TCS)) (addSep (absPathString BCS)) =
      true ↔ BCS <+: TCS := by
    unfold jsStartsWith
    rw [List.isPrefixOf_iff_prefix]
    rw [addSep_absPathString TCS htgood, addSep_absPathString BCS hbgood]
    rw [List.cons_prefix_cons]
    rw [compSlash_prefix_iff BCS TCS hbgood htgood]
    simp
  have hne : absPathString TCS ≠ absPathString BCS ↔ TCS ≠ BCS := by
    constructor
    · intro h1 h2
      exact h1 (by rw [h2])
    · intro h1 h2
      exact h1 (absPathString_inj TCS BCS htgood hbgood h2)
  by_cases hpre : BCS <+: TCS
  · rw [if_pos hpre]
    have : ¬ (absPathString TCS ≠ absPathString BCS ∧
        ¬ (jsStartsWith (addSep (absPathString TCS)) (addSep (absPathString BCS)) = true)) := by
      intro hcontra
      exact hcontra.2 (hstart.mpr hpre)
    rw [if_neg this]
  · rw [if_neg hpre]
    have : absPathString TCS ≠ absPathString BCS ∧
        ¬ (jsStartsWith (addSep (absPathString TCS)) (addSep (absPathString BCS)) = true) := by
      constructor
      · rw [hne]
        intro h2
        exact hpre (by rw [h2])
      · intro h2
        exact hpre (hstart.mp h2)
    rw [if_pos this]

/-- The components of the rendered path of a good component list. -/
theorem pathComponents_absPathString (cs : List Chars) (h : ∀ c ∈ cs, goodComp c) :
    pathComponents (absPathString cs) = cs := by
  by_cases hne : cs = []
  · subst hne
    rfl
  · unfold pathComponents
    rw [splitChar_absPathString cs hne h]
    rw [List.filter_cons]
    simp only [decide_not]
    rw [List.filter_eq_self.mpr (fun c hc => by simpa using (h c hc).1)]
    simp

/-- The resolved base directory, Node `resolve(basePath)` at string level. -/
def resolvedBaseOf (cwd base : String) : String :=
  String.mk (nodeResolve1 cwd.data base.data)

/-- The resolved target path, Node `resolve(resolvedBase, relativePath)`. -/
def resolvedTargetOf (cwd base rel : String) : String :=
  String.mk (nodeResolve2 cwd.data (nodeResolve1 cwd.data base.data) rel.data)

/-- Resolving a non-absolute user path folds its pieces onto the resolved
base components. -/
theorem resolveComps1_below (cwd rel : Chars) (cs : List Chars)
    (h : ∀ c ∈ cs, goodComp c) :
    resolveComps1 cwd (absPathString cs ++ '/' :: rel) =
      (splitChar '/' rel).foldl normStep cs := by
  unfold resolveComps1
  have habs : isAbsolutePath (absPathString cs ++ '/' :: rel) = true := rfl
  rw [habs]
  simp only [if_true]
  exact normComps_absPathString_append cs rel h

theorem resolveComps2_nonabs (cwd b rel : Chars)
    (hrel : isAbsolutePath rel = false) :
    resolveComps2 cwd (nodeResolve1 cwd b) rel =
      (splitChar '/' rel).foldl normStep (resolveComps1 cwd b) := by
  unfold resolveComps2
  rw [hrel]
  simp only [Bool.false_eq_true, if_false]
  rw [nodeResolve1_eq_absPathString]
  exact resolveComps1_below cwd rel (resolveComps1 cwd b) (resolveComps1_good cwd b)

/-- C1: for every working directory, root and user-supplied path,
`safeResolve` raises an error exactly when the resolved form of the user path
is neither the resolved root itself nor a path having the root as a proper
path-component ancestor — the comparison is by path components (so a sibling
directory whose name merely starts with the characters of the root is
rejected) — and when it does not raise it returns exactly the resolved path,
never a clamped or substituted one. -/
theorem safeResolve_rejects_iff_outside_root (cwd base rel : String) :
    ((∃ e, safeResolve cwd base rel = Except.error e) ↔
      ¬ componentAncestorOrSelf (resolvedBaseOf cwd base).data
        (resolvedTargetOf cwd base rel).data) ∧
    ((∃ e, safeResolve cwd base rel = Except.error e) ∨
      safeResolve cwd base rel = Except.ok (resolvedTargetOf cwd base rel)) := by
  unfold safeResolve resolvedBaseOf resolvedTargetOf componentAncestorOrSelf
  rw [safeResolveL_char]
  rw [nodeResolve1_eq_absPathString cwd.data base.data]
  rw [nodeResolve2_eq_absPathString]
  set BCS := resolveComps1 cwd.data base.data with hBCS
  set TCS := resolveComps2 cwd.data (absPathString BCS) rel.data with hTCS
  have hbgood : ∀ c ∈ BCS, goodComp c := resolveComps1_good cwd.data base.data
  have htgood : ∀ c ∈ TCS, goodComp c :=
    resolveComps2_good cwd.data (absPathString BCS) rel.data
  have hdb : (String.mk (absPathString BCS)).data = absPathString BCS := rfl
  have hdt : (String.mk (absPathString TCS)).data = absPathString TCS := rfl
  rw [hdb, hdt, pathComponents_absPathString BCS hbgood,
    pathComponents_absPathString TCS htgood]
  by_cases hpre : BCS <+: TCS
  · rw [if_pos hpre]
    constructor
    · constructor
      · rintro ⟨e, he⟩
        simp at he
      · intro hcontra
        exact absurd hpre hcontra
    · right
      simp
  · rw [if_neg hpre]
    constructor
    · constructor
      · intro _
        exact hpre
      · intro _
        exact ⟨String.mk ("Path traversal detected: ".data ++ rel.data), rfl⟩
    · left
      exact ⟨String.mk ("Path traversal detected: ".data ++ rel.data), rfl⟩

theorem normStep_empty (acc : List Chars) : normStep acc [] = acc := by
  simp [normStep]

theorem normStep_dot (acc : List Chars) : normStep acc ['.'] = acc := by
  simp [normStep]

theorem normStep_dotdot (acc : List Chars) :
    normStep acc ['.', '.'] = acc.dropLast := by
  simp [normStep]

/-- String-level restatement of the `safeResolveL` characterization. -/
theorem safeResolve_eq_of_comps (cwd base rel : String) :
    safeResolve cwd base rel =
      if resolveComps1 cwd.data base.data <+:
          resolveComps2 cwd.data (nodeResolve1 cwd.data base.data) rel.data
      then Except.ok (String.mk (absPathString
        (resolveComps2 cwd.data (nodeResolve1 cwd.data base.data) rel.data)))
      else Except.error (String.mk ("Path traversal detected: ".data ++ rel.data)) := by
  unfold safeResolve
  rw [safeResolveL_char]
  by_cases h : resolveComps1 cwd.data base.data <+:
      resolveComps2 cwd.data (nodeResolve1 cwd.data base.data) rel.data
  · rw [if_pos h, if_pos h]
  · rw [if_neg h, if_neg h]

/-- Counterexample to C2 as stated: at the filesystem root, `".."` resolves
to the root itself, so `resolve("/", "..")` succeeds instead of failing. -/
theorem c2_counterexample_root_dotdot :
    safeResolve "/" "/" ".." = Except.ok "/" := by rfl

/-- C2 (amended): for every working directory and root, `resolve(root, "")`
and `resolve(root, ".")` succeed and return the resolved root itself;
`resolve(root, "..")` fails whenever the resolved root has at least one path
component (i.e. is not the filesystem root `/`, where `..` re-resolves to the
root and succeeds); `resolve(root, "sub/../file")` equals
`resolve(root, "file")`; and an absolute path whose resolved form is outside
the root fails even though it is a syntactically valid absolute path. -/
theorem c2_resolve_edge_cases (cwd root : String) :
    safeResolve cwd root "" = Except.ok (resolvedBaseOf cwd root) ∧
    safeResolve cwd root "." = Except.ok (resolvedBaseOf cwd root) ∧
    (pathComponents (resolvedBaseOf cwd root).data ≠ [] →
      ∃ e, safeResolve cwd root ".." = Except.error e) ∧
    safeResolve cwd root "sub/../file" = safeResolve cwd root "file" ∧
    (∀ p : String, isAbsolutePath p.data = true →
      ¬ componentAncestorOrSelf (resolvedBaseOf cwd root).data
        (resolvedTargetOf cwd root p).data →
      ∃ e, safeResolve cwd root p = Except.error e) := by
  set BCS := resolveComps1 cwd.data root.data with hBCS
  have hbgood : ∀ c ∈ BCS, goodComp c := resolveComps1_good cwd.data root.data
  have hbase : resolvedBaseOf cwd root = String.mk (absPathString BCS) := by
    unfold resolvedBaseOf
    rw [nodeResolve1_eq_absPathString]
  refine ⟨?_, ?_, ?_, ?_, ?_⟩
  · rw [safeResolve_eq_of_comps]
    have ht : resolveComps2 cwd.data (nodeResolve1 cwd.data root.data) "".data = BCS := by
      rw [resolveComps2_nonabs cwd.data root.data "".data rfl]
      show List.foldl normStep BCS [[]] = BCS
      rw [List.foldl_cons, normStep_empty, List.foldl_nil]
    rw [ht, if_pos (List.prefix_refl BCS), hbase]
  · rw [safeResolve_eq_of_comps]
    have ht : resolveComps2 cwd.data (nodeResolve1 cwd.data root.data) ".".data = BCS := by
      rw [resolveComps2_nonabs cwd.data root.data ".".data rfl]
      show List.foldl normStep BCS [['.']] = BCS
      rw [List.foldl_cons, normStep_dot, List.foldl_nil]
    rw [ht, if_pos (List.prefix_refl BCS), hbase]
  · intro hne
    rw [hbase] at hne
    have hne2 : BCS ≠ [] := by
      rw [pathComponents_absPathString BCS hbgood] at hne
      exact hne
    rw [safeResolve_eq_of_comps]
    have ht : resolveComps2 cwd.data (nodeResolve1 cwd.data root.data) "..".data =
        BCS.dropLast := by
      rw [resolveComps2_nonabs cwd.data root.data "..".data rfl]
      show List.foldl normStep BCS [['.', '.']] = BCS.dropLast
      rw [List.foldl_cons, normStep_dotdot, List.foldl_nil]
    rw [ht]
    have hnp : ¬ BCS <+: BCS.dropLast := by
      intro hp
      have h1 := hp.length_le
      rw [List.length_dropLast] at h1
      have h2 : 0 < BCS.length := List.length_pos.mpr hne2
      omega
    rw [if_neg hnp]
    exact ⟨_, rfl⟩
  · rw [safeResolve_eq_of_comps, safeResolve_eq_of_comps]
    have hseg : ∀ w : Chars, w ≠ [] → w ≠ ['.'] → w ≠ ['.', '.'] →
        ∀ acc : List Chars, normStep acc w = acc ++ [w] := by
      intro w h1 h2 h3 acc
      unfold normStep
      rw [if_neg (by simp [h1, h2]), if_neg h3]
    have ht1 : resolveComps2 cwd.data (nodeResolve1 cwd.data root.data)
        "sub/../file".data = BCS ++ ["file".data] := by
      rw [resolveComps2_nonabs cwd.data root.data "sub/../file".data rfl]
      show List.foldl normStep BCS [['s','u','b'], ['.','.'], ['f','i','l','e']] = _
      rw [List.foldl_cons, hseg ['s','u','b'] (by decide) (by decide) (by decide)]
      rw [List.foldl_cons, normStep_dotdot, List.dropLast_concat]
      rw [List.foldl_cons, hseg ['f','i','l','e'] (by decide) (by decide) (by decide)]
      rw [List.foldl_nil]
    have ht2 : resolveComps2 cwd.data (nodeResolve1 cwd.data root.data)
        "file".data = BCS ++ ["file".data] := by
      rw [resolveComps2_nonabs cwd.data root.data "file".data rfl]
      show List.foldl normStep BCS [['f','i','l','e']] = _
      rw [List.foldl_cons, hseg ['f','i','l','e'] (by decide) (by decide) (by decide)]
      rw [List.foldl_nil]
    rw [ht1, ht2]
    rw [if_pos (List.prefix_append BCS ["file".data]),
      if_pos (List.prefix_append BCS ["file".data])]
  · intro p habs hout
    rw [safeResolve_eq_of_comps]
    have ht : resolveComps2 cwd.data (nodeResolve1 cwd.data root.data) p.data =
        normComps (splitChar '/' p.data) := by
      unfold resolveComps2
      rw [habs]
      simp
    have hout2 : ¬ BCS <+: normComps (splitChar '/' p.data) := by
      intro hp
      apply hout
      unfold componentAncestorOrSelf resolvedTargetOf
      rw [hbase]
      rw [nodeResolve2_eq_absPathString]
      show pathComponents (absPathString BCS) <+:
        pathComponents (absPathString (resolveComps2 cwd.data
          (nodeResolve1 cwd.data root.data) p.data))
      rw [pathComponents_absPathString BCS hbgood,
        pathComponents_absPathString _ (resolveComps2_good _ _ _), ht]
      exact hp
    rw [ht, if_neg hout2]
    exact ⟨_, rfl⟩

/-- Witness instantiating `c2_resolve_edge_cases` at concrete inputs. -/
theorem c2_resolve_edge_cases_witness :
    safeResolve "/" "/proj" "" = Except.ok (resolvedBaseOf "/" "/proj") ∧
    safeResolve "/" "/proj" "." = Except.ok (resolvedBaseOf "/" "/proj") ∧
    (∃ e, safeResolve "/" "/proj" ".." = Except.error e) ∧
    safeResolve "/" "/proj" "sub/../file" = safeResolve "/" "/proj" "file" ∧
    (∃ e, safeResolve "/" "/proj" "/etc" = Except.error e) := by
  have h := c2_resolve_edge_cases "/" "/proj"
  exact ⟨h.1, h.2.1, h.2.2.1 (by decide), h.2.2.2.1,
    h.2.2.2.2 "/etc" (by decide) (by decide)⟩

/-! ## Value codec

`parseGodotValue` / `toGodotValue` from src/tools/helpers/godot-types.ts.
JavaScript values flowing through the codec are modelled by the inductive
`GVal`.  JavaScript numbers are IEEE floats; the codec never does arithmetic
on them, and the claims only exercise integer-valued numbers, so numbers are
modelled as `Int`.  A numeric literal with a fractional part denotes a float
outside this model; the embedding keeps it as `floatLit` carrying the literal
text, and no theorem below quantifies over `floatLit` values. -/

inductive GVal where
  | vbool (b : Bool)
  | vnull
  | vint (n : Int)
  | vstr (s : String)
  | vec2 (x y : Int)
  | vec3 (x y z : Int)
  | color (r g b a : Int)
  | rect2 (x y w h : Int)
  | varr (elems : List GVal)
  | floatLit (raw : String)

/-- Decimal digit character of a value below ten. -/
def digitChar (n : Nat) : Char := Char.ofNat (48 + n)

/-- Numeric value of a decimal digit character. -/
def digitVal (c : Char) : Nat := c.toNat - 48

/-- Digits of a natural number, most significant first (fuelled so that the
definition reduces in the kernel; `n + 1` fuel always suffices). -/
def natDigitsF : Nat → Nat → Chars
  | 0, _ => []
  | fuel + 1, n =>
    if n < 10 then [digitChar n]
    else natDigitsF fuel (n / 10) ++ [digitChar (n % 10)]

/-- JavaScript `Number.prototype.toString` on a nonnegative integer. -/
def natDigits (n : Nat) : Chars := natDigitsF (n + 1) n

/-- JavaScript `Number.prototype.toString` on an integer-valued number. -/
def intToStr (n : Int) : Chars :=
  if n < 0 then '-' :: natDigits (-n).toNat else natDigits n.toNat

/-- Numeric value of a big-endian digit string. -/
def natOfDigits (s : Chars) : Nat :=
  s.foldl (fun acc c => acc * 10 + digitVal c) 0

/-- JavaScript `Number.parseFloat` / `parseInt` on an integral literal
(`-?\d+`). -/
def intOfNumLit (s : Chars) : Int :=
  if s.head? = some '-' then - Int.ofNat (natOfDigits s.tail)
  else Int.ofNat (natOfDigits s)

/-- A nonempty all-digit string. -/
def digitsNonempty (s : Chars) : Bool := !s.isEmpty && s.all Char.isDigit

/-- The anchored numeric-literal test `^-?\d+(\.\d+)?$` of the codec. -/
def isNumLit (s : Chars) : Bool :=
  let t := if s.head? = some '-' then s.tail else s
  match splitChar '.' t with
  | [a] => digitsNonempty a
  | [a, b] => digitsNonempty a && digitsNonempty b
  | _ => false

/-- Drop leading regex `\s*` (the codec's patterns only ever meet ASCII). -/
def skipWs (s : Chars) : Chars := s.dropWhile isJsWs

/-- Match a literal and return the rest. -/
def expectLit (lit s : Chars) : Option Chars :=
  if lit.isPrefixOf s then some (s.drop lit.length) else none

/-- Match one expected character. -/
def expectChar (c : Char) (s : Chars) : Option Chars :=
  match s with
  | x :: r => if x = c then some r else none
  | [] => none

/-- Capture `-?[\d.]+` at the front; greedy, as in the source regexes. -/
def takeNumCap (s : Chars) : Option (Chars × Chars) :=
  if s.head? = some '-' then
    let run := s.tail.takeWhile (fun c => c.isDigit || c = '.')
    if run.isEmpty then none else some ('-' :: run, s.tail.drop run.length)
  else
    let run := s.takeWhile (fun c => c.isDigit || c = '.')
    if run.isEmpty then none else some (run, s.drop run.length)

/-- Capture `-?\d+` at the front (the `Vector2i` integer captures). -/
def takeIntCap (s : Chars) : Option (Chars × Chars) :=
  if s.head? = some '-' then
    let run := s.tail.takeWhile Char.isDigit
    if run.isEmpty then none else some ('-' :: run, s.tail.drop run.length)
  else
    let run := s.takeWhile Char.isDigit
    if run.isEmpty then none else some (run, s.drop run.length)

/-- Anchored match of `^name\(\s*cap\s*,\s*cap\s*\)$`. -/
def matchCall2 (cap : Chars → Option (Chars × Chars)) (name s : Chars) :
    Option (Chars × Chars) :=
  match expectLit (name ++ ['(']) s with
  | none => none
  | some r1 =>
    match cap (skipWs r1) with
    | none => none
    | some (a, r2) =>
      match expectChar ',' (skipWs r2) with
      | none => none
      | some r3 =>
        match cap (skipWs r3) with
        | none => none
        | some (b, r4) =>
          match expectChar ')' (skipWs r4) with
          | some [] => some (a, b)
          | _ => none

/-- Anchored match of `^name\(\s*cap\s*,\s*cap\s*,\s*cap\s*\)$`. -/
def matchCall3 (name s : Chars) : Option (Chars × Chars × Chars) :=
  match expectLit (name ++ ['(']) s with
  | none => none
  | some r1 =>
    match takeNumCap (skipWs r1) with
    | none => none
    | some (a, r2) =>
      match expectChar ',' (skipWs r2) with
      | none => none
      | some r3 =>
        match takeNumCap (skipWs r3) with
        | none => none
        | some (b, r4) =>
          match expectChar ',' (skipWs r4) with
          | none => none
          | some r5 =>
            match takeNumCap (skipWs r5) with
            | none => none
            | some (c, r6) =>
              match expectChar ')' (skipWs r6) with
              | some [] => some (a, b, c)
              | _ => none

/-- Anchored match of `^name\(\s*cap\s*,\s*cap\s*,\s*cap\s*,\s*cap\s*\)$`. -/
def matchCall4 (name s : Chars) : Option (Chars × Chars × Chars × Chars) :=
  match expectLit (name ++ ['(']) s with
  | none => none
  | some r1 =>
    match takeNumCap (skipWs r1) with
    | none => none
    | some (a, r2) =>
      match expectChar ',' (skipWs r2) with
      | none => none
      | some r3 =>
        match takeNumCap (skipWs r3) with
        | none => none
        | some (b, r4) =>
          match expectChar ',' (skipWs r4) with
          | none => none
          | some r5 =>
            match takeNumCap (skipWs r5) with
            | none => none
            | some (c, r6) =>
              match expectChar ',' (skipWs r6) with
              | none => none
              | some r7 =>
                match takeNumCap (skipWs r7) with
                | none => none
                | some (d, r8) =>
                  match expectChar ')' (skipWs r8) with
                  | some [] => some (a, b, c, d)
                  | _ => none

/-- Anchored match of the `Color` pattern, whose fourth argument is
optional: `^Color\(\s*cap\s*,\s*cap\s*,\s*cap\s*(?:,\s*cap\s*)?\)$`. -/
def matchColor (s : Chars) : Option (Chars × Chars × Chars × Option Chars) :=
  match expectLit "Color(".data s with
  | none => none
  | some r1 =>
    match takeNumCap (skipWs r1) with
    | none => none
    | some (a, r2) =>
      match expectChar ',' (skipWs r2) with
      | none => none
      | some r3 =>
        match takeNumCap (skipWs r3) with
        | none => none
        | some (b, r4) =>
          match expectChar ',' (skipWs r4) with
          | none => none
          | some r5 =>
            match takeNumCap (skipWs r5) with
            | none => none
            | some (c, r6) =>
              match skipWs r6 with
              | [] => none
              | x :: rest =>
                if x = ')' then
                  match rest with
                  | [] => some (a, b, c, none)
                  | _ => none
                else if x = ',' then
                  match takeNumCap (skipWs rest) with
                  | none => none
                  | some (d, r8) =>
                    match expectChar ')' (skipWs r8) with
                    | some [] => some (a, b, c, some d)
                    | _ => none
                else none

/-- Anchored match of `^name\("([^"]*)"\)$`. -/
def matchQuotedCall (name s : Chars) : Option Chars :=
  match expectLit (name ++ ['(', '"']) s with
  | none => none
  | some r1 =>
    let cap := r1.takeWhile (fun c => c ≠ '"')
    match r1.drop cap.length with
    | '"' :: ')' :: [] => some cap
    | _ => none

/-- Interpret a `-?[\d.]+` capture in the integer model: integral captures
denote their integer, fractional ones denote unmodelled floats. -/
def numCapToInt (cap : Chars) : Option Int :=
  if cap.any (fun c => c = '.') then none else some (intOfNumLit cap)

/-- Build the value for a matched two-argument vector call. -/
def mkVec2 (fallback : Chars) (a b : Chars) : GVal :=
  match numCapToInt a, numCapToInt b with
  | some x, some y => GVal.vec2 x y
  | _, _ => GVal.floatLit (String.mk fallback)

/-- Build the value for a matched three-argument vector call. -/
def mkVec3 (fallback : Chars) (a b c : Chars) : GVal :=
  match numCapToInt a, numCapToInt b, numCapToInt c with
  | some x, some y, some z => GVal.vec3 x y z
  | _, _, _ => GVal.floatLit (String.mk fallback)

/-- Build the value for a matched `Rect2` call. -/
def mkRect2 (fallback : Chars) (a b c d : Chars) : GVal :=
  match numCapToInt a, numCapToInt b, numCapToInt c, numCapToInt d with
  | some x, some y, some w, some h => GVal.rect2 x y w h
  | _, _, _, _ => GVal.floatLit (String.mk fallback)

/-- Build the value for a matched `Color` call (alpha defaults to `1.0`). -/
def mkColor (fallback : Chars) (a b c : Chars) (d : Option Chars) : GVal :=
  match numCapToInt a, numCapToInt b, numCapToInt c with
  | some r, some g, some bl =>
    match d with
    | none => GVal.color r g bl 1
    | some dc =>
      match numCapToInt dc with
      | some al => GVal.color r g bl al
      | none => GVal.floatLit (String.mk fallback)
  | _, _, _ => GVal.floatLit (String.mk fallback)

/-- The tail of the decoder: the call-expression matchers, the array branch
(which recurses on the comma-split elements via `recur`) and the opaque
fallback. -/
def parseMatchers (recur : Chars → GVal) (trimmed : Chars) : GVal :=
  match matchCall2 takeNumCap "Vector2".data trimmed with
  | some (a, b) => mkVec2 trimmed a b
  | none =>
  match matchCall2 takeIntCap "Vector2i".data trimmed with
  | some (a, b) => mkVec2 trimmed a b
  | none =>
  match matchCall3 "Vector3".data trimmed with
  | some (a, b, c) => mkVec3 trimmed a b c
  | none =>
  match matchColor trimmed with
  | some (a, b, c, d) => mkColor trimmed a b c d
  | none =>
  match matchCall4 "Rect2".data trimmed with
  | some (a, b, c, d) => mkRect2 trimmed a b c d
  | none =>
  match matchQuotedCall "NodePath".data trimmed with
  | some cap => GVal.vstr (String.mk cap)
  | none =>
  match matchQuotedCall "ExtResource".data trimmed with
  | some cap =>
    GVal.vstr (String.mk ("ExtResource(\"".data ++ cap ++ "\")".data))
  | none =>
  match matchQuotedCall "SubResource".data trimmed with
  | some cap =>
    GVal.vstr (String.mk ("SubResource(\"".data ++ cap ++ "\")".data))
  | none =>
  if jsStartsWith trimmed ['['] && jsEndsWith trimmed [']'] then
    let inner := jsTrim ((trimmed.drop 1).dropLast)
    if inner = [] then GVal.varr []
    else GVal.varr ((splitChar ',' inner).map (fun item => recur (jsTrim item)))
  else GVal.vstr (String.mk trimmed)

/-- The `parseGodotValue` decoder of src/tools/helpers/godot-types.ts, lines
42-130, with explicit fuel so that the definition is structurally recursive
(fuel `length + 1` always suffices; the recursion, through array elements,
strictly shrinks the input).  Branch order follows the source exactly:
booleans, `null`, numeric literal, quoted string, `Vector2`, `Vector2i`,
`Vector3`, `Color`, `Rect2`, `NodePath`, `ExtResource`, `SubResource`,
bracketed array, and finally the trimmed input itself. -/
def parseGodotValueF : Nat → Chars → GVal
  | 0, expr => GVal.vstr (String.mk (jsTrim expr))
  | fuel + 1, expr =>
    let trimmed := jsTrim expr
    if trimmed = "true".data then GVal.vbool true
    else if trimmed = "false".data then GVal.vbool false
    else if trimmed = "null".data then GVal.vnull
    else if isNumLit trimmed then
      if trimmed.any (fun c => c = '.') then GVal.floatLit (String.mk trimmed)
      else GVal.vint (intOfNumLit trimmed)
    else if (jsStartsWith trimmed ['"'] && jsEndsWith trimmed ['"']) ||
        (jsStartsWith trimmed ['\''] && jsEndsWith trimmed ['\'']) then
      GVal.vstr (String.mk ((trimmed.drop 1).dropLast))
    else parseMatchers (fun item => parseGodotValueF fuel item) trimmed

/-- String-level `parseGodotValue`. -/
def parseGodotValue (s : String) : GVal :=
  parseGodotValueF (s.data.length + 1) s.data

/-- Join strings with a separator string. -/
def joinStrs (sep : Chars) : List Chars → Chars
  | [] => []
  | x :: xs =>
    match xs with
    | [] => x
    | _ :: _ => x ++ sep ++ joinStrs sep xs

/-- The `toGodotValue` encoder of src/tools/helpers/godot-types.ts, lines
135-168: `null`/booleans/numbers/strings/arrays first, then the plain-record
shape dispatch in source order (`Rect2` before `Vector3` before `Vector2`
before `Color`, alpha defaulting to `1`).  Fuelled (through array elements)
so that the definition is structurally recursive; `sizeOf v` fuel always
suffices. -/
def toGodotValueF : Nat → GVal → Chars
  | 0, _ => []
  | fuel + 1, v =>
    match v with
    | GVal.vnull => "null".data
    | GVal.vbool true => "true".data
    | GVal.vbool false => "false".data
    | GVal.vint n => intToStr n
    | GVal.floatLit raw => raw.data
    | GVal.vstr s => '"' :: s.data ++ ['"']
    | GVal.varr xs => '[' :: joinStrs ", ".data (xs.map (toGodotValueF fuel)) ++ [']']
    | GVal.rect2 x y w h =>
      "Rect2(".data ++ intToStr x ++ ", ".data ++ intToStr y ++ ", ".data ++
        intToStr w ++ ", ".data ++ intToStr h ++ [')']
    | GVal.vec3 x y z =>
      "Vector3(".data ++ intToStr x ++ ", ".data ++ intToStr y ++ ", ".data ++
        intToStr z ++ [')']
    | GVal.vec2 x y =>
      "Vector2(".data ++ intToStr x ++ ", ".data ++ intToStr y ++ [')']
    | GVal.color r g b a =>
      "Color(".data ++ intToStr r ++ ", ".data ++ intToStr g ++ ", ".data ++
        intToStr b ++ ", ".data ++ intToStr a ++ [')']

mutual

/-- Structural size of a value, used as encoder fuel. -/
def gvalSize : GVal → Nat
  | GVal.varr xs => 1 + gvalListSize xs
  | _ => 1

/-- Structural size of a value list. -/
def gvalListSize : List GVal → Nat
  | [] => 0
  | x :: xs => gvalSize x + gvalListSize xs

end

/-- Character-level `toGodotValue`. -/
def toGodotValueL (v : GVal) : Chars := toGodotValueF (gvalSize v) v

/-- String-level `toGodotValue`. -/
def toGodotValue (v : GVal) : String := String.mk (toGodotValueL v)

theorem digitChar_isDigit (m : Nat) (h : m < 10) : (digitChar m).isDigit = true := by
  interval_cases m <;> decide

theorem digitVal_digitChar (m : Nat) (h : m < 10) : digitVal (digitChar m) = m := by
  interval_cases m <;> decide

theorem ne_of_isDigit (d : Char) (hd : d.isDigit = false) :
    ∀ c : Char, c.isDigit = true → c ≠ d := by
  intro c hc heq
  subst heq
  rw [hc] at hd
  cases hd

theorem isJsWs_of_isDigit (c : Char) (hc : c.isDigit = true) : isJsWs c = false := by
  cases hws : isJsWs c
  · rfl
  · unfold isJsWs at hws
    simp only [Bool.or_eq_true, decide_eq_true_eq] at hws
    rcases hws with ((((h | h) | h) | h) | h) | h <;> (subst h; cases hc)

theorem natDigitsF_ne_nil (fuel n : Nat) (h : n < fuel) : natDigitsF fuel n ≠ [] := by
  cases fuel with
  | zero => omega
  | succ f =>
    unfold natDigitsF
    by_cases h10 : n < 10
    · simp [h10]
    · simp [h10]

theorem natDigitsF_all_digit (fuel : Nat) :
    ∀ n, n < fuel → ∀ c ∈ natDigitsF fuel n, c.isDigit = true := by
  induction fuel with
  | zero => intro n h; omega
  | succ f ih =>
    intro n _ c hc
    unfold natDigitsF at hc
    by_cases h10 : n < 10
    · rw [if_pos h10] at hc
      rw [List.mem_singleton] at hc
      subst hc
      exact digitChar_isDigit n h10
    · rw [if_neg h10] at hc
      rcases List.mem_append.mp hc with h1 | h1
      · exact ih (n / 10) (by omega) c h1
      · rw [List.mem_singleton] at h1
        subst h1
        exact digitChar_isDigit (n % 10) (Nat.mod_lt n (by omega))

theorem natOfDigits_append_one (a : Chars) (d : Char) :
    natOfDigits (a ++ [d]) = natOfDigits a * 10 + digitVal d := by
  unfold natOfDigits
  rw [List.foldl_append]
  rfl

theorem natOfDigits_natDigitsF (fuel : Nat) :
    ∀ n, n < fuel → natOfDigits (natDigitsF fuel n) = n := by
  induction fuel with
  | zero => intro n h; omega
  | succ f ih =>
    intro n _
    unfold natDigitsF
    by_cases h10 : n < 10
    · rw [if_pos h10]
      show natOfDigits [digitChar n] = n
      unfold natOfDigits
      simp [digitVal_digitChar n h10]
    · rw [if_neg h10]
      rw [natOfDigits_append_one]
      rw [ih (n / 10) (by omega)]
      rw [digitVal_digitChar (n % 10) (Nat.mod_lt n (by omega))]
      omega

theorem natDigits_ne_nil (n : Nat) : natDigits n ≠ [] :=
  natDigitsF_ne_nil (n + 1) n (by omega)

theorem natDigits_all_digit (n : Nat) : ∀ c ∈ natDigits n, c.isDigit = true :=
  natDigitsF_all_digit (n + 1) n (by omega)

theorem natOfDigits_natDigits (n : Nat) : natOfDigits (natDigits n) = n :=
  natOfDigits_natDigitsF (n + 1) n (by omega)

/-- Every character of an integer's decimal rendering is a digit or the
leading minus sign. -/
theorem intToStr_chars (n : Int) :
    ∀ c ∈ intToStr n, c.isDigit = true ∨ c = '-' := by
  intro c hc
  unfold intToStr at hc
  by_cases hneg : n < 0
  · rw [if_pos hneg] at hc
    rcases List.mem_cons.mp hc with h | h
    · right; exact h
    · left; exact natDigits_all_digit _ c h
  · rw [if_neg hneg] at hc
    left; exact natDigits_all_digit _ c hc

theorem intToStr_ne_nil (n : Int) : intToStr n ≠ [] := by
  unfold intToStr
  by_cases hneg : n < 0
  · simp [hneg]
  · simp only [hneg, Bool.false_eq_true, if_false]
    exact natDigits_ne_nil _

/-- The head of an integer rendering: a minus sign exactly for negatives,
otherwise a digit. -/
theorem intToStr_head (n : Int) :
    (0 ≤ n ∧ ∃ d r, intToStr n = d :: r ∧ d.isDigit = true) ∨
    (n < 0 ∧ ∃ r, intToStr n = '-' :: r) := by
  by_cases hneg : n < 0
  · right
    refine ⟨hneg, ?_⟩
    unfold intToStr
    rw [if_pos hneg]
    exact ⟨_, rfl⟩
  · left
    refine ⟨by omega, ?_⟩
    have hd := natDigits_ne_nil n.toNat
    cases hnd : natDigits n.toNat with
    | nil => exact absurd hnd hd
    | cons d r =>
      refine ⟨d, r, ?_, ?_⟩
      · unfold intToStr
        rw [if_neg hneg, hnd]
      · exact natDigits_all_digit n.toNat d (by rw [hnd]; simp)

theorem dot_not_mem_natDigits (n : Nat) : '.' ∉ natDigits n := by
  intro hmem
  have := natDigits_all_digit n '.' hmem
  cases this

theorem dot_not_mem_intToStr (n : Int) : '.' ∉ intToStr n := by
  intro hmem
  rcases intToStr_chars n '.' hmem with h | h
  · cases h
  · cases h

theorem digitsNonempty_natDigits (n : Nat) : digitsNonempty (natDigits n) = true := by
  unfold digitsNonempty
  rw [Bool.and_eq_true]
  constructor
  · simp [List.isEmpty_iff, natDigits_ne_nil n]
  · rw [List.all_eq_true]
    intro c hc
    exact natDigits_all_digit n c hc

theorem isNumLit_natDigits_core (m : Nat) (pre : Chars)
    (hpre : pre = natDigits m) :
    (match splitChar '.' pre with
      | [a] => digitsNonempty a
      | [a, b] => digitsNonempty a && digitsNonempty b
      | _ => false) = true := by
  subst hpre
  rw [splitChar_of_not_mem '.' (natDigits m) (dot_not_mem_natDigits m)]
  exact digitsNonempty_natDigits m

/-- The decimal rendering of an integer passes the codec's numeric test. -/
theorem isNumLit_intToStr (n : Int) : isNumLit (intToStr n) = true := by
  unfold isNumLit
  by_cases hneg : n < 0
  · have hs : intToStr n = '-' :: natDigits (-n).toNat := by
      unfold intToStr
      rw [if_pos hneg]
    rw [hs]
    simp only [List.head?_cons, List.tail_cons, if_pos rfl]
    exact isNumLit_natDigits_core (-n).toNat _ rfl
  · have hs : intToStr n = natDigits n.toNat := by
      unfold intToStr
      rw [if_neg hneg]
    rw [hs]
    have hne : (natDigits n.toNat).head? ≠ some '-' := by
      cases hnd : natDigits n.toNat with
      | nil => simp
      | cons d r =>
        have hd : d.isDigit = true := natDigits_all_digit n.toNat d (by simp [hnd])
        simp only [List.head?_cons, ne_eq, Option.some.injEq]
        exact ne_of_isDigit '-' (by decide) d hd
    rw [if_neg hne]
    exact isNumLit_natDigits_core n.toNat _ rfl

/-- Parsing back the decimal rendering of an integer recovers it. -/
theorem intOfNumLit_intToStr (n : Int) : intOfNumLit (intToStr n) = n := by
  unfold intOfNumLit
  by_cases hneg : n < 0
  · have hs : intToStr n = '-' :: natDigits (-n).toNat := by
      unfold intToStr
      rw [if_pos hneg]
    rw [hs]
    have hcond : ('-' :: natDigits (-n).toNat).head? = some '-' := rfl
    rw [if_pos hcond, List.tail_cons, natOfDigits_natDigits, Int.ofNat_eq_coe]
    omega
  · have hs : intToStr n = natDigits n.toNat := by
      unfold intToStr
      rw [if_neg hneg]
    rw [hs]
    have hne : (natDigits n.toNat).head? ≠ some '-' := by
      cases hnd : natDigits n.toNat with
      | nil => simp
      | cons d r =>
        have hd : d.isDigit = true := natDigits_all_digit n.toNat d (by simp [hnd])
        simp only [List.head?_cons, ne_eq, Option.some.injEq]
        exact ne_of_isDigit '-' (by decide) d hd
    rw [if_neg hne]
    rw [natOfDigits_natDigits, Int.ofNat_eq_coe]
    omega

/-- The codec's numeric test fails on anything whose first character is
neither a digit nor a minus sign. -/
theorem isNumLit_false_of_head (c : Char) (r : Chars)
    (h1 : c.isDigit = false) (h2 : c ≠ '-') : isNumLit (c :: r) = false := by
  unfold isNumLit
  have hne : (c :: r).head? ≠ some '-' := by
    simp only [List.head?_cons, ne_eq, Option.some.injEq]
    exact h2
  rw [if_neg hne]
  dsimp only
  by_cases hdot : c = '.'
  · subst hdot
    obtain ⟨p, ps, hps⟩ := splitChar_dest '.' r
    rw [splitChar_cons_eq '.' '.' r p ps hps, if_pos rfl]
    cases ps with
    | nil => rfl
    | cons q qs => rfl
  · obtain ⟨p, ps, hps⟩ := splitChar_dest '.' r
    rw [splitChar_cons_eq '.' c r p ps hps, if_neg hdot]
    have hda : digitsNonempty (c :: p) = false := by
      unfold digitsNonempty
      rw [Bool.and_eq_false_iff]
      right
      rw [List.all_cons, Bool.and_eq_false_iff]
      left
      exact h1
    cases ps with
    | nil =>
      show digitsNonempty (c :: p) = false
      exact hda
    | cons q qs =>
      cases qs with
      | nil =>
        show (digitsNonempty (c :: p) && digitsNonempty q) = false
        rw [hda]
        rfl
      | cons q2 qs2 => rfl

theorem dropWhile_cons_false (p : Char → Bool) (c : Char) (r : Chars)
    (h : p c = false) : List.dropWhile p (c :: r) = c :: r := by
  simp [List.dropWhile_cons, h]

/-- A string whose first and last characters are not whitespace is fixed by
JavaScript `trim`. -/
theorem jsTrim_eq_self (s : Chars)
    (h1 : ∀ a, s.head? = some a → isJsWs a = false)
    (h2 : ∀ a, s.getLast? = some a → isJsWs a = false) :
    jsTrim s = s := by
  unfold jsTrim
  have hl : s.dropWhile isJsWs = s := by
    cases s with
    | nil => rfl
    | cons c r => exact dropWhile_cons_false isJsWs c r (h1 c rfl)
  rw [hl]
  have hr : s.reverse.dropWhile isJsWs = s.reverse := by
    cases hrev : s.reverse with
    | nil => rfl
    | cons c r =>
      refine dropWhile_cons_false isJsWs c r (h2 c ?_)
      rw [← List.head?_reverse, hrev]
      rfl
  rw [hr, List.reverse_reverse]

/-- Leading whitespace is dropped by `trim`. -/
theorem jsTrim_cons_ws (c : Char) (r : Chars) (h : isJsWs c = true) :
    jsTrim (c :: r) = jsTrim r := by
  unfold jsTrim
  rw [List.dropWhile_cons, h]
  simp

theorem skipWs_of_head (c : Char) (r : Chars) (h : isJsWs c = false) :
    skipWs (c :: r) = c :: r :=
  dropWhile_cons_false isJsWs c r h

theorem skipWs_cons_ws (c : Char) (r : Chars) (h : isJsWs c = true) :
    skipWs (c :: r) = skipWs r := by
  unfold skipWs
  rw [List.dropWhile_cons, h]
  simp

theorem takeWhile_append_stop (p : Char → Bool) (a : Chars) (d : Char) (r : Chars)
    (ha : ∀ c ∈ a, p c = true) (hd : p d = false) :
    (a ++ d :: r).takeWhile p = a := by
  induction a with
  | nil => simp [List.takeWhile_cons, hd]
  | cons c cs ih =>
    rw [List.cons_append, List.takeWhile_cons, ha c (by simp)]
    simp only [if_true]
    rw [ih (fun x hx => ha x (by simp [hx]))]

theorem expectLit_append (lit rest : Chars) :
    expectLit lit (lit ++ rest) = some rest := by
  unfold expectLit
  rw [if_pos (by rw [List.isPrefixOf_iff_prefix]; exact List.prefix_append lit rest)]
  rw [List.drop_left]

theorem expectChar_cons (c : Char) (r : Chars) : expectChar c (c :: r) = some r := by
  simp [expectChar]

/-- `takeNumCap` on an integer rendering followed by a non-numeric
character captures exactly the rendering. -/
theorem takeNumCap_intToStr (n : Int) (d : Char) (r : Chars)
    (hd : (d.isDigit || d = '.') = false) :
    takeNumCap (intToStr n ++ d :: r) = some (intToStr n, d :: r) := by
  unfold takeNumCap
  by_cases hneg : n < 0
  · have hs : intToStr n = '-' :: natDigits (-n).toNat := by
      unfold intToStr
      rw [if_pos hneg]
    rw [hs, List.cons_append]
    simp only [List.head?_cons, List.tail_cons]
    rw [if_pos trivial]
    have hrun : (natDigits (-n).toNat ++ d :: r).takeWhile
        (fun c => c.isDigit || c = '.') = natDigits (-n).toNat := by
      refine takeWhile_append_stop _ _ d r ?_ hd
      intro c hc
      rw [natDigits_all_digit _ c hc]
      rfl
    rw [hrun]
    rw [if_neg (by simp only [List.isEmpty_eq_true]; exact natDigits_ne_nil _)]
    rw [List.drop_left]
  · have hs : intToStr n = natDigits n.toNat := by
      unfold intToStr
      rw [if_neg hneg]
    rw [hs]
    have hcond : ((natDigits n.toNat ++ d :: r)).head? ≠ some '-' := by
      cases hnd : natDigits n.toNat with
      | nil => exact absurd hnd (natDigits_ne_nil _)
      | cons c cs =>
        have hc : c.isDigit = true :=
          natDigits_all_digit _ c (by rw [hnd]; exact List.mem_cons_self c cs)
        rw [List.cons_append]
        simp only [List.head?_cons, ne_eq, Option.some.injEq]
        exact ne_of_isDigit '-' (by decide) c hc
    rw [if_neg hcond]
    have hrun : (natDigits n.toNat ++ d :: r).takeWhile
        (fun c => c.isDigit || c = '.') = natDigits n.toNat := by
      refine takeWhile_append_stop _ _ d r ?_ hd
      intro c hc
      rw [natDigits_all_digit _ c hc]
      rfl
    rw [hrun]
    rw [if_neg (by simp only [List.isEmpty_eq_true]; exact natDigits_ne_nil _)]
    rw [List.drop_left]

theorem numCapToInt_intToStr (n : Int) : numCapToInt (intToStr n) = some n := by
  unfold numCapToInt
  rw [if_neg ?hdot]
  · rw [intOfNumLit_intToStr]
  case hdot =>
    simp only [List.any_eq_true, decide_eq_true_eq, not_exists, not_and]
    intro c hc
    intro hceq
    subst hceq
    exact dot_not_mem_intToStr n hc

theorem mem_of_head?_eq (a : Char) (s : Chars) (h : s.head? = some a) : a ∈ s := by
  cases s with
  | nil => cases h
  | cons c r =>
    simp only [List.head?_cons, Option.some.injEq] at h
    simp [← h]

theorem mem_of_getLast?_eq (a : Char) (s : Chars) (h : s.getLast? = some a) : a ∈ s := by
  cases hs : s with
  | nil => subst hs; cases h
  | cons c r =>
    subst hs
    rw [List.getLast?_eq_getLast _ (by simp)] at h
    rw [← Option.some.inj h]
    exact List.getLast_mem _

theorem intToStr_head_not_ws (n : Int) :
    ∀ a, (intToStr n).head? = some a → isJsWs a = false := by
  intro a ha
  rcases intToStr_chars n a (mem_of_head?_eq a _ ha) with h | h
  · exact isJsWs_of_isDigit a h
  · subst h
    rfl

theorem intToStr_last_not_ws (n : Int) :
    ∀ a, (intToStr n).getLast? = some a → isJsWs a = false := by
  intro a ha
  rcases intToStr_chars n a (mem_of_getLast?_eq a _ ha) with h | h
  · exact isJsWs_of_isDigit a h
  · subst h
    rfl

theorem skipWs_intToStr (n : Int) (t : Chars) :
    skipWs (intToStr n ++ t) = intToStr n ++ t := by
  cases hs : intToStr n with
  | nil => exact absurd hs (intToStr_ne_nil n)
  | cons c r =>
    rw [List.cons_append]
    refine skipWs_of_head c _ ?_
    refine intToStr_head_not_ws n c ?_
    rw [hs]
    rfl

theorem cons_ne_of_head (c : Char) (r : Chars) (d : Char) (t : Chars) (h : c ≠ d) :
    c :: r ≠ d :: t := by
  intro he
  exact h (List.cons.inj he).1

theorem quoted_check_false (c : Char) (r : Chars) (h1 : c ≠ '"') (h2 : c ≠ '\'') :
    ((jsStartsWith (c :: r) ['"'] && jsEndsWith (c :: r) ['"']) ||
      (jsStartsWith (c :: r) ['\''] && jsEndsWith (c :: r) ['\''])) = false := by
  have p1 : jsStartsWith (c :: r) ['"'] = false := by
    unfold jsStartsWith
    simp [List.isPrefixOf, Ne.symm h1]
  have p2 : jsStartsWith (c :: r) ['\''] = false := by
    unfold jsStartsWith
    simp [List.isPrefixOf, Ne.symm h2]
  rw [p1, p2]
  rfl

/-- Skip the scalar branches of the decoder down to the matcher cascade, for
a trimmed input whose head rules each of them out. -/
theorem parseF_to_matchers (fuel : Nat) (expr : Chars) (c : Char) (rest : Chars)
    (htrim : jsTrim expr = c :: rest)
    (ht : c ≠ 't') (hf : c ≠ 'f') (hn : c ≠ 'n')
    (hd : c.isDigit = false) (hm : c ≠ '-')
    (hq : c ≠ '"') (hq2 : c ≠ '\'') :
    parseGodotValueF (fuel + 1) expr =
      parseMatchers (fun item => parseGodotValueF fuel item) (c :: rest) := by
  simp only [parseGodotValueF]
  rw [htrim]
  rw [if_neg (show ¬(c :: rest = "true".data) from cons_ne_of_head c rest 't' _ ht)]
  rw [if_neg (show ¬(c :: rest = "false".data) from cons_ne_of_head c rest 'f' _ hf)]
  rw [if_neg (show ¬(c :: rest = "null".data) from cons_ne_of_head c rest 'n' _ hn)]
  rw [if_neg (by simp [isNumLit_false_of_head c rest hd hm])]
  rw [if_neg (by simp [quoted_check_false c rest hq hq2])]

theorem expectLit_none (lit s : Chars) (h : lit.isPrefixOf s = false) :
    expectLit lit s = none := by
  simp [expectLit, h]

theorem matchCall2_skip (cap : Chars → Option (Chars × Chars)) (name s : Chars)
    (h : expectLit (name ++ ['(']) s = none) : matchCall2 cap name s = none := by
  unfold matchCall2
  rw [h]

theorem matchCall3_skip (name s : Chars)
    (h : expectLit (name ++ ['(']) s = none) : matchCall3 name s = none := by
  unfold matchCall3
  rw [h]

theorem matchCall4_skip (name s : Chars)
    (h : expectLit (name ++ ['(']) s = none) : matchCall4 name s = none := by
  unfold matchCall4
  rw [h]

theorem matchColor_skip (s : Chars)
    (h : expectLit "Color(".data s = none) : matchColor s = none := by
  unfold matchColor
  rw [h]

theorem matchQuotedCall_skip (name s : Chars)
    (h : expectLit (name ++ ['(', '"']) s = none) : matchQuotedCall name s = none := by
  unfold matchQuotedCall
  rw [h]

theorem intToStr_ne_cons (n : Int) (c : Char) (hdig : c.isDigit = false)
    (hminus : c ≠ '-') (t : Chars) : intToStr n ≠ c :: t := by
  intro heq
  rcases intToStr_head n with ⟨_, d, r, hdr, hd⟩ | ⟨_, r, hr⟩
  · rw [hdr] at heq
    have : d = c := (List.cons.inj heq).1
    subst this
    rw [hd] at hdig
    cases hdig
  · rw [hr] at heq
    exact hminus ((List.cons.inj heq).1.symm)

theorem toGodot_vint_shape (n : Int) : toGodotValueL (GVal.vint n) = intToStr n := by
  simp [toGodotValueL, gvalSize, toGodotValueF]

/-- Decoding an encoded integer recovers it at any positive fuel. -/
theorem parseF_vint (n : Int) (fuel : Nat) :
    parseGodotValueF (fuel + 1) (intToStr n) = GVal.vint n := by
  simp only [parseGodotValueF]
  have htrim : jsTrim (intToStr n) = intToStr n :=
    jsTrim_eq_self _ (intToStr_head_not_ws n) (intToStr_last_not_ws n)
  rw [htrim]
  rw [if_neg (intToStr_ne_cons n 't' (by decide) (by decide) _)]
  rw [if_neg (intToStr_ne_cons n 'f' (by decide) (by decide) _)]
  rw [if_neg (intToStr_ne_cons n 'n' (by decide) (by decide) _)]
  rw [if_pos (isNumLit_intToStr n)]
  rw [if_neg ?hdot]
  · rw [intOfNumLit_intToStr]
  case hdot =>
    simp only [List.any_eq_true, decide_eq_true_eq, not_exists, not_and]
    intro c hc hceq
    subst hceq
    exact dot_not_mem_intToStr n hc

theorem toGodot_vstr_shape (s : String) :
    toGodotValueL (GVal.vstr s) = '"' :: (s.data ++ ['"']) := by
  simp [toGodotValueL, gvalSize, toGodotValueF]

/-- Decoding an encoded string recovers it at any positive fuel. -/
theorem parseF_vstr (s : String) (fuel : Nat) :
    parseGodotValueF (fuel + 1) ('"' :: (s.data ++ ['"'])) = GVal.vstr s := by
  have hlast : ('"' :: (s.data ++ ['"'])).getLast? = some '"' := by
    simp [List.getLast?_cons, List.getLast?_append]
  have htrim : jsTrim ('"' :: (s.data ++ ['"'])) = '"' :: (s.data ++ ['"']) := by
    refine jsTrim_eq_self _ ?_ ?_
    · intro a ha
      simp only [List.head?_cons, Option.some.injEq] at ha
      subst ha
      rfl
    · intro a ha
      rw [hlast] at ha
      rw [← Option.some.inj ha]
      rfl
  simp only [parseGodotValueF]
  rw [htrim]
  rw [if_neg (cons_ne_of_head '"' _ 't' _ (by decide))]
  rw [if_neg (cons_ne_of_head '"' _ 'f' _ (by decide))]
  rw [if_neg (cons_ne_of_head '"' _ 'n' _ (by decide))]
  rw [if_neg (by simp [isNumLit_false_of_head '"' (s.data ++ ['"']) (by decide) (by decide)])]
  rw [if_pos ?hquote]
  · show GVal.vstr (String.mk (s.data ++ ['"']).dropLast) = GVal.vstr s
    rw [List.dropLast_concat]
  case hquote =>
    have h1 : jsStartsWith ('"' :: (s.data ++ ['"'])) ['"'] = true := by
      simp [jsStartsWith, List.isPrefixOf]
    have h2 : jsEndsWith ('"' :: (s.data ++ ['"'])) ['"'] = true := by
      unfold jsEndsWith
      rw [List.isSuffixOf_iff_suffix]
      exact ⟨'"' :: s.data, rfl⟩
    rw [h1, h2]
    rfl

theorem toGodot_vec2_shape (x y : Int) :
    toGodotValueL (GVal.vec2 x y) =
      "Vector2(".data ++ (intToStr x ++ ',' :: ' ' :: (intToStr y ++ [')'])) := by
  simp [toGodotValueL, gvalSize, toGodotValueF]

theorem matchCall2_vec2 (x y : Int) :
    matchCall2 takeNumCap "Vector2".data
      ("Vector2(".data ++ (intToStr x ++ ',' :: ' ' :: (intToStr y ++ [')']))) =
    some (intToStr x, intToStr y) := by
  unfold matchCall2
  rw [show ("Vector2".data ++ ['(']) = "Vector2(".data from rfl]
  rw [expectLit_append]
  dsimp only
  rw [skipWs_intToStr]
  rw [takeNumCap_intToStr x ',' (' ' :: (intToStr y ++ [')'])) (by decide)]
  dsimp only
  rw [skipWs_of_head ',' (' ' :: (intToStr y ++ [')'])) (by decide), expectChar_cons]
  dsimp only
  rw [skipWs_cons_ws ' ' (intToStr y ++ [')']) (by decide), skipWs_intToStr]
  rw [takeNumCap_intToStr y ')' [] (by decide)]
  dsimp only
  rw [skipWs_of_head ')' [] (by decide), expectChar_cons]

/-- Decoding an encoded `Vector2` recovers it at any positive fuel. -/
theorem parseF_vec2 (x y : Int) (fuel : Nat) :
    parseGodotValueF (fuel + 1) (toGodotValueL (GVal.vec2 x y)) = GVal.vec2 x y := by
  rw [toGodot_vec2_shape]
  have hshape : "Vector2(".data ++ (intToStr x ++ ',' :: ' ' :: (intToStr y ++ [')'])) =
      'V' :: ("ector2(".data ++ (intToStr x ++ ',' :: ' ' :: (intToStr y ++ [')']))) := rfl
  have hlast : ("Vector2(".data ++
      (intToStr x ++ ',' :: ' ' :: (intToStr y ++ [')']))).getLast? = some ')' := by
    simp [List.getLast?_append, List.getLast?_cons]
  have htrim : jsTrim ("Vector2(".data ++
      (intToStr x ++ ',' :: ' ' :: (intToStr y ++ [')']))) =
      "Vector2(".data ++ (intToStr x ++ ',' :: ' ' :: (intToStr y ++ [')'])) := by
    refine jsTrim_eq_self _ ?_ ?_
    · intro a ha
      rw [hshape] at ha
      simp only [List.head?_cons, Option.some.injEq] at ha
      subst ha
      rfl
    · intro a ha
      rw [hlast] at ha
      rw [← Option.some.inj ha]
      rfl
  rw [parseF_to_matchers fuel _ 'V'
    ("ector2(".data ++ (intToStr x ++ ',' :: ' ' :: (intToStr y ++ [')'])))
    (by rw [htrim, hshape]) (by decide) (by decide) (by decide) (by decide)
    (by decide) (by decide) (by decide)]
  rw [← hshape]
  unfold parseMatchers
  rw [matchCall2_vec2]
  dsimp only
  unfold mkVec2
  rw [numCapToInt_intToStr, numCapToInt_intToStr]

theorem toGodot_vec3_shape (x y z : Int) :
    toGodotValueL (GVal.vec3 x y z) =
      "Vector3(".data ++ (intToStr x ++ ',' :: ' ' ::
        (intToStr y ++ ',' :: ' ' :: (intToStr z ++ [')']))) := by
  simp [toGodotValueL, gvalSize, toGodotValueF]

theorem matchCall3_vec3 (x y z : Int) :
    matchCall3 "Vector3".data
      ("Vector3(".data ++ (intToStr x ++ ',' :: ' ' ::
        (intToStr y ++ ',' :: ' ' :: (intToStr z ++ [')'])))) =
    some (intToStr x, intToStr y, intToStr z) := by
  unfold matchCall3
  rw [show ("Vector3".data ++ ['(']) = "Vector3(".data from rfl]
  rw [expectLit_append]
  dsimp only
  rw [skipWs_intToStr]
  rw [takeNumCap_intToStr x ','
    (' ' :: (intToStr y ++ ',' :: ' ' :: (intToStr z ++ [')']))) (by decide)]
  dsimp only
  rw [skipWs_of_head ','
    (' ' :: (intToStr y ++ ',' :: ' ' :: (intToStr z ++ [')']))) (by decide),
    expectChar_cons]
  dsimp only
  rw [skipWs_cons_ws ' ' (intToStr y ++ ',' :: ' ' :: (intToStr z ++ [')'])) (by decide),
    skipWs_intToStr]
  rw [takeNumCap_intToStr y ',' (' ' :: (intToStr z ++ [')'])) (by decide)]
  dsimp only
  rw [skipWs_of_head ',' (' ' :: (intToStr z ++ [')'])) (by decide), expectChar_cons]
  dsimp only
  rw [skipWs_cons_ws ' ' (intToStr z ++ [')']) (by decide), skipWs_intToStr]
  rw [takeNumCap_intToStr z ')' [] (by decide)]
  dsimp only
  rw [skipWs_of_head ')' [] (by decide), expectChar_cons]

/-- Decoding an encoded `Vector3` recovers it at any positive fuel. -/
theorem parseF_vec3 (x y z : Int) (fuel : Nat) :
    parseGodotValueF (fuel + 1) (toGodotValueL (GVal.vec3 x y z)) = GVal.vec3 x y z := by
  rw [toGodot_vec3_shape]
  have hshape : "Vector3(".data ++ (intToStr x ++ ',' :: ' ' ::
      (intToStr y ++ ',' :: ' ' :: (intToStr z ++ [')']))) =
      'V' :: ("ector3(".data ++ (intToStr x ++ ',' :: ' ' ::
        (intToStr y ++ ',' :: ' ' :: (intToStr z ++ [')'])))) := rfl
  have hlast : ("Vector3(".data ++ (intToStr x ++ ',' :: ' ' ::
      (intToStr y ++ ',' :: ' ' :: (intToStr z ++ [')'])))).getLast? = some ')' := by
    simp [List.getLast?_append, List.getLast?_cons]
  have htrim : jsTrim ("Vector3(".data ++ (intToStr x ++ ',' :: ' ' ::
      (intToStr y ++ ',' :: ' ' :: (intToStr z ++ [')'])))) =
      "Vector3(".data ++ (intToStr x ++ ',' :: ' ' ::
        (intToStr y ++ ',' :: ' ' :: (intToStr z ++ [')']))) := by
    refine jsTrim_eq_self _ ?_ ?_
    · intro a ha
      rw [hshape] at ha
      simp only [List.head?_cons, Option.some.injEq] at ha
      subst ha
      rfl
    · intro a ha
      rw [hlast] at ha
      rw [← Option.some.inj ha]
      rfl
  rw [parseF_to_matchers fuel _ 'V'
    ("ector3(".data ++ (intToStr x ++ ',' :: ' ' ::
      (intToStr y ++ ',' :: ' ' :: (intToStr z ++ [')']))))
    (by rw [htrim, hshape]) (by decide) (by decide) (by decide) (by decide)
    (by decide) (by decide) (by decide)]
  rw [← hshape]
  unfold parseMatchers
  rw [matchCall2_skip takeNumCap "Vector2".data _
    (expectLit_none _ _ (by simp [List.isPrefixOf, List.cons_append]))]
  dsimp only
  rw [matchCall2_skip takeIntCap "Vector2i".data _
    (expectLit_none _ _ (by simp [List.isPrefixOf, List.cons_append]))]
  dsimp only
  rw [matchCall3_vec3]
  dsimp only
  unfold mkVec3
  rw [numCapToInt_intToStr, numCapToInt_intToStr, numCapToInt_intToStr]

theorem toGodot_color_shape (r g b a : Int) :
    toGodotValueL (GVal.color r g b a) =
      "Color(".data ++ (intToStr r ++ ',' :: ' ' :: (intToStr g ++ ',' :: ' ' ::
        (intToStr b ++ ',' :: ' ' :: (intToStr a ++ [')'])))) := by
  simp [toGodotValueL, gvalSize, toGodotValueF]

theorem matchColor_enc (r g b a : Int) :
    matchColor ("Color(".data ++ (intToStr r ++ ',' :: ' ' ::
      (intToStr g ++ ',' :: ' ' :: (intToStr b ++ ',' :: ' ' ::
        (intToStr a ++ [')']))))) =
    some (intToStr r, intToStr g, intToStr b, some (intToStr a)) := by
  unfold matchColor
  rw [expectLit_append]
  dsimp only
  rw [skipWs_intToStr]
  rw [takeNumCap_intToStr r ',' (' ' :: (intToStr g ++ ',' :: ' ' ::
    (intToStr b ++ ',' :: ' ' :: (intToStr a ++ [')'])))) (by decide)]
  dsimp only
  rw [skipWs_of_head ',' (' ' :: (intToStr g ++ ',' :: ' ' ::
    (intToStr b ++ ',' :: ' ' :: (intToStr a ++ [')'])))) (by decide), expectChar_cons]
  dsimp only
  rw [skipWs_cons_ws ' ' (intToStr g ++ ',' :: ' ' ::
    (intToStr b ++ ',' :: ' ' :: (intToStr a ++ [')']))) (by decide), skipWs_intToStr]
  rw [takeNumCap_intToStr g ','
    (' ' :: (intToStr b ++ ',' :: ' ' :: (intToStr a ++ [')']))) (by decide)]
  dsimp only
  rw [skipWs_of_head ','
    (' ' :: (intToStr b ++ ',' :: ' ' :: (intToStr a ++ [')']))) (by decide),
    expectChar_cons]
  dsimp only
  rw [skipWs_cons_ws ' ' (intToStr b ++ ',' :: ' ' :: (intToStr a ++ [')'])) (by decide),
    skipWs_intToStr]
  rw [takeNumCap_intToStr b ',' (' ' :: (intToStr a ++ [')'])) (by decide)]
  dsimp only
  rw [skipWs_of_head ',' (' ' :: (intToStr a ++ [')'])) (by decide)]
  dsimp only
  rw [if_neg (by decide), if_pos rfl]
  rw [skipWs_cons_ws ' ' (intToStr a ++ [')']) (by decide), skipWs_intToStr]
  rw [takeNumCap_intToStr a ')' [] (by decide)]
  dsimp only
  rw [skipWs_of_head ')' [] (by decide), expectChar_cons]

/-- Decoding an encoded `Color` (alpha always emitted) recovers it at any
positive fuel. -/
theorem parseF_color (r g b a : Int) (fuel : Nat) :
    parseGodotValueF (fuel + 1) (toGodotValueL (GVal.color r g b a)) =
      GVal.color r g b a := by
  rw [toGodot_color_shape]
  have hshape : "Color(".data ++ (intToStr r ++ ',' :: ' ' ::
      (intToStr g ++ ',' :: ' ' :: (intToStr b ++ ',' :: ' ' ::
        (intToStr a ++ [')'])))) =
      'C' :: ("olor(".data ++ (intToStr r ++ ',' :: ' ' ::
        (intToStr g ++ ',' :: ' ' :: (intToStr b ++ ',' :: ' ' ::
          (intToStr a ++ [')']))))) := rfl
  have hlast : ("Color(".data ++ (intToStr r ++ ',' :: ' ' ::
      (intToStr g ++ ',' :: ' ' :: (intToStr b ++ ',' :: ' ' ::
        (intToStr a ++ [')']))))).getLast? = some ')' := by
    simp [List.getLast?_append, List.getLast?_cons]
  have htrim : jsTrim ("Color(".data ++ (intToStr r ++ ',' :: ' ' ::
      (intToStr g ++ ',' :: ' ' :: (intToStr b ++ ',' :: ' ' ::
        (intToStr a ++ [')']))))) =
      "Color(".data ++ (intToStr r ++ ',' :: ' ' ::
        (intToStr g ++ ',' :: ' ' :: (intToStr b ++ ',' :: ' ' ::
          (intToStr a ++ [')'])))) := by
    refine jsTrim_eq_self _ ?_ ?_
    · intro c ha
      rw [hshape] at ha
      simp only [List.head?_cons, Option.some.injEq] at ha
      subst ha
      rfl
    · intro c ha
      rw [hlast] at ha
      rw [← Option.some.inj ha]
      rfl
  rw [parseF_to_matchers fuel _ 'C'
    ("olor(".data ++ (intToStr r ++ ',' :: ' ' ::
      (intToStr g ++ ',' :: ' ' :: (intToStr b ++ ',' :: ' ' ::
        (intToStr a ++ [')'])))))
    (by rw [htrim, hshape]) (by decide) (by decide) (by decide) (by decide)
    (by decide) (by decide) (by decide)]
  rw [← hshape]
  unfold parseMatchers
  rw [matchCall2_skip takeNumCap "Vector2".data _
    (expectLit_none _ _ (by simp [List.isPrefixOf, List.cons_append]))]
  dsimp only
  rw [matchCall2_skip takeIntCap "Vector2i".data _
    (expectLit_none _ _ (by simp [List.isPrefixOf, List.cons_append]))]
  dsimp only
  rw [matchCall3_skip "Vector3".data _
    (expectLit_none _ _ (by simp [List.isPrefixOf, List.cons_append]))]
  dsimp only
  rw [matchColor_enc]
  dsimp only
  unfold mkColor
  rw [numCapToInt_intToStr, numCapToInt_intToStr, numCapToInt_intToStr]
  dsimp only
  rw [numCapToInt_intToStr]

theorem toGodot_rect2_shape (x y w h : Int) :
    toGodotValueL (GVal.rect2 x y w h) =
      "Rect2(".data ++ (intToStr x ++ ',' :: ' ' :: (intToStr y ++ ',' :: ' ' ::
        (intToStr w ++ ',' :: ' ' :: (intToStr h ++ [')'])))) := by
  simp [toGodotValueL, gvalSize, toGodotValueF]

theorem matchCall4_rect2 (x y w h : Int) :
    matchCall4 "Rect2".data ("Rect2(".data ++ (intToStr x ++ ',' :: ' ' ::
      (intToStr y ++ ',' :: ' ' :: (intToStr w ++ ',' :: ' ' ::
        (intToStr h ++ [')']))))) =
    some (intToStr x, intToStr y, intToStr w, intToStr h) := by
  unfold matchCall4
  rw [show ("Rect2".data ++ ['(']) = "Rect2(".data from rfl]
  rw [expectLit_append]
  dsimp only
  rw [skipWs_intToStr]
  rw [takeNumCap_intToStr x ',' (' ' :: (intToStr y ++ ',' :: ' ' ::
    (intToStr w ++ ',' :: ' ' :: (intToStr h ++ [')'])))) (by decide)]
  dsimp only
  rw [skipWs_of_head ',' (' ' :: (intToStr y ++ ',' :: ' ' ::
    (intToStr w ++ ',' :: ' ' :: (intToStr h ++ [')'])))) (by decide), expectChar_cons]
  dsimp only
  rw [skipWs_cons_ws ' ' (intToStr y ++ ',' :: ' ' ::
    (intToStr w ++ ',' :: ' ' :: (intToStr h ++ [')']))) (by decide), skipWs_intToStr]
  rw [takeNumCap_intToStr y ','
    (' ' :: (intToStr w ++ ',' :: ' ' :: (intToStr h ++ [')']))) (by decide)]
  dsimp only
  rw [skipWs_of_head ','
    (' ' :: (intToStr w ++ ',' :: ' ' :: (intToStr h ++ [')']))) (by decide),
    expectChar_cons]
  dsimp only
  rw [skipWs_cons_ws ' ' (intToStr w ++ ',' :: ' ' :: (intToStr h ++ [')'])) (by decide),
    skipWs_intToStr]
  rw [takeNumCap_intToStr w ',' (' ' :: (intToStr h ++ [')'])) (by decide)]
  dsimp only
  rw [skipWs_of_head ',' (' ' :: (intToStr h ++ [')'])) (by decide), expectChar_cons]
  dsimp only
  rw [skipWs_cons_ws ' ' (intToStr h ++ [')']) (by decide), skipWs_intToStr]
  rw [takeNumCap_intToStr h ')' [] (by decide)]
  dsimp only
  rw [skipWs_of_head ')' [] (by decide), expectChar_cons]

/-- Decoding an encoded `Rect2` recovers it at any positive fuel. -/
theorem parseF_rect2 (x y w h : Int) (fuel : Nat) :
    parseGodotValueF (fuel + 1) (toGodotValueL (GVal.rect2 x y w h)) =
      GVal.rect2 x y w h := by
  rw [toGodot_rect2_shape]
  have hshape : "Rect2(".data ++ (intToStr x ++ ',' :: ' ' ::
      (intToStr y ++ ',' :: ' ' :: (intToStr w ++ ',' :: ' ' ::
        (intToStr h ++ [')'])))) =
      'R' :: ("ect2(".data ++ (intToStr x ++ ',' :: ' ' ::
        (intToStr y ++ ',' :: ' ' :: (intToStr w ++ ',' :: ' ' ::
          (intToStr h ++ [')']))))) := rfl
  have hlast : ("Rect2(".data ++ (intToStr x ++ ',' :: ' ' ::
      (intToStr y ++ ',' :: ' ' :: (intToStr w ++ ',' :: ' ' ::
        (intToStr h ++ [')']))))).getLast? = some ')' := by
    simp [List.getLast?_append, List.getLast?_cons]
  have htrim : jsTrim ("Rect2(".data ++ (intToStr x ++ ',' :: ' ' ::
      (intToStr y ++ ',' :: ' ' :: (intToStr w ++ ',' :: ' ' ::
        (intToStr h ++ [')']))))) =
      "Rect2(".data ++ (intToStr x ++ ',' :: ' ' ::
        (intToStr y ++ ',' :: ' ' :: (intToStr w ++ ',' :: ' ' ::
          (intToStr h ++ [')'])))) := by
    refine jsTrim_eq_self _ ?_ ?_
    · intro c ha
      rw [hshape] at ha
      simp only [List.head?_cons, Option.some.injEq] at ha
      subst ha
      rfl
    · intro c ha
      rw [hlast] at ha
      rw [← Option.some.inj ha]
      rfl
  rw [parseF_to_matchers fuel _ 'R'
    ("ect2(".data ++ (intToStr x ++ ',' :: ' ' ::
      (intToStr y ++ ',' :: ' ' :: (intToStr w ++ ',' :: ' ' ::
        (intToStr h ++ [')'])))))
    (by rw [htrim, hshape]) (by decide) (by decide) (by decide) (by decide)
    (by decide) (by decide) (by decide)]
  rw [← hshape]
  unfold parseMatchers
  rw [matchCall2_skip takeNumCap "Vector2".data _
    (expectLit_none _ _ (by simp [List.isPrefixOf, List.cons_append]))]
  dsimp only
  rw [matchCall2_skip takeIntCap "Vector2i".data _
    (expectLit_none _ _ (by simp [List.isPrefixOf, List.cons_append]))]
  dsimp only
  rw [matchCall3_skip "Vector3".data _
    (expectLit_none _ _ (by simp [List.isPrefixOf, List.cons_append]))]
  dsimp only
  rw [matchColor_skip _
    (expectLit_none _ _ (by simp [List.isPrefixOf, List.cons_append]))]
  dsimp only
  rw [matchCall4_rect2]
  dsimp only
  unfold mkRect2
  rw [numCapToInt_intToStr, numCapToInt_intToStr, numCapToInt_intToStr,
    numCapToInt_intToStr]

/-- The scalar (non-array, non-float) values of the claim's variant list. -/
def isScalarRep : GVal → Prop
  | GVal.varr _ => False
  | GVal.floatLit _ => False
  | _ => True

/-- Decoding an encoded scalar value recovers it at any positive fuel (the
scalar branches of the decoder never recurse). -/
theorem parseF_scalar (v : GVal) (hs : isScalarRep v) (fuel : Nat) :
    parseGodotValueF (fuel + 1) (toGodotValueL v) = v := by
  cases v with
  | vbool b => cases b with
    | true => rfl
    | false => rfl
  | vnull => rfl
  | vint n =>
    rw [toGodot_vint_shape]
    exact parseF_vint n fuel
  | vstr s =>
    rw [toGodot_vstr_shape]
    exact parseF_vstr s fuel
  | vec2 x y => exact parseF_vec2 x y fuel
  | vec3 x y z => exact parseF_vec3 x y z fuel
  | color r g b a => exact parseF_color r g b a fuel
  | rect2 x y w h => exact parseF_rect2 x y w h fuel
  | varr xs => exact hs.elim
  | floatLit raw => exact hs.elim

theorem head_ws_fact_of (s : Chars) (c : Char) (h : s.head? = some c)
    (hc : isJsWs c = false) :
    ∀ a, s.head? = some a → isJsWs a = false := by
  intro a ha
  rw [h] at ha
  rw [← Option.some.inj ha]
  exact hc

theorem last_ws_fact_of (s : Chars) (c : Char) (h : s.getLast? = some c)
    (hc : isJsWs c = false) :
    ∀ a, s.getLast? = some a → isJsWs a = false := by
  intro a ha
  rw [h] at ha
  rw [← Option.some.inj ha]
  exact hc

/-- The encoding of a scalar value is nonempty and neither starts nor ends
with whitespace. -/
theorem enc_scalar_facts (v : GVal) (hs : isScalarRep v) :
    toGodotValueL v ≠ [] ∧
    (∀ a, (toGodotValueL v).head? = some a → isJsWs a = false) ∧
    (∀ a, (toGodotValueL v).getLast? = some a → isJsWs a = false) := by
  cases v with
  | vbool b =>
    cases b with
    | true => exact ⟨by decide, head_ws_fact_of _ 't' rfl rfl, last_ws_fact_of _ 'e' rfl rfl⟩
    | false => exact ⟨by decide, head_ws_fact_of _ 'f' rfl rfl, last_ws_fact_of _ 'e' rfl rfl⟩
  | vnull => exact ⟨by decide, head_ws_fact_of _ 'n' rfl rfl, last_ws_fact_of _ 'l' rfl rfl⟩
  | vint n =>
    rw [toGodot_vint_shape]
    exact ⟨intToStr_ne_nil n, intToStr_head_not_ws n, intToStr_last_not_ws n⟩
  | vstr s =>
    rw [toGodot_vstr_shape]
    refine ⟨by simp, head_ws_fact_of _ '"' rfl rfl, last_ws_fact_of _ '"' ?_ rfl⟩
    simp [List.getLast?_cons, List.getLast?_append]
  | vec2 x y =>
    rw [toGodot_vec2_shape]
    refine ⟨by simp, head_ws_fact_of _ 'V' rfl rfl, last_ws_fact_of _ ')' ?_ rfl⟩
    simp [List.getLast?_append, List.getLast?_cons]
  | vec3 x y z =>
    rw [toGodot_vec3_shape]
    refine ⟨by simp, head_ws_fact_of _ 'V' rfl rfl, last_ws_fact_of _ ')' ?_ rfl⟩
    simp [List.getLast?_append, List.getLast?_cons]
  | color r g b a =>
    rw [toGodot_color_shape]
    refine ⟨by simp, head_ws_fact_of _ 'C' rfl rfl, last_ws_fact_of _ ')' ?_ rfl⟩
    simp [List.getLast?_append, List.getLast?_cons]
  | rect2 x y w h =>
    rw [toGodot_rect2_shape]
    refine ⟨by simp, head_ws_fact_of _ 'R' rfl rfl, last_ws_fact_of _ ')' ?_ rfl⟩
    simp [List.getLast?_append, List.getLast?_cons]
  | varr xs => exact hs.elim
  | floatLit raw => exact hs.elim

theorem gvalSize_scalar (v : GVal) (hs : isScalarRep v) : gvalSize v = 1 := by
  cases v <;> first
    | exact hs.elim
    | simp [gvalSize]

theorem toGodotValueF_scalar_fuel (v : GVal) (hs : isScalarRep v) (f : Nat) :
    toGodotValueF (f + 1) v = toGodotValueL v := by
  have h1 : toGodotValueL v = toGodotValueF 1 v := by
    unfold toGodotValueL
    rw [gvalSize_scalar v hs]
  rw [h1]
  cases v with
  | vbool b => cases b <;> rfl
  | vnull => rfl
  | vint n => rfl
  | vstr s => rfl
  | vec2 x y => rfl
  | vec3 x y z => rfl
  | color r g b a => rfl
  | rect2 x y w h => rfl
  | varr xs => exact hs.elim
  | floatLit raw => exact hs.elim

theorem gvalListSize_pos (xs : List GVal) (hne : xs ≠ []) : 1 ≤ gvalListSize xs := by
  cases xs with
  | nil => exact absurd rfl hne
  | cons a l =>
    have ha : 1 ≤ gvalSize a := by cases a <;> simp [gvalSize]
    have hc : gvalListSize (a :: l) = gvalSize a + gvalListSize l := by
      simp [gvalListSize]
    omega

/-- Encoding shape of an array of scalars. -/
theorem toGodot_varr_shape (xs : List GVal) (h : ∀ x ∈ xs, isScalarRep x) :
    toGodotValueL (GVal.varr xs) =
      '[' :: (joinStrs (',' :: [' ']) (xs.map toGodotValueL) ++ [']']) := by
  have hsz : gvalSize (GVal.varr xs) = gvalListSize xs + 1 := by
    simp [gvalSize]
    omega
  unfold toGodotValueL
  rw [hsz]
  simp only [toGodotValueF]
  have hmap : xs.map (toGodotValueF (gvalListSize xs)) = xs.map toGodotValueL := by
    refine List.map_congr_left ?_
    intro x hx
    have hpos : 1 ≤ gvalListSize xs := gvalListSize_pos xs (List.ne_nil_of_mem hx)
    obtain ⟨f, hf⟩ : ∃ f, gvalListSize xs = f + 1 := ⟨gvalListSize xs - 1, by omega⟩
    rw [hf]
    exact toGodotValueF_scalar_fuel x (h x hx) f
  rw [hmap]
  rfl

theorem joinStrs_ne_nil (sep x : Chars) (r : List Chars) (hx : x ≠ []) :
    joinStrs sep (x :: r) ≠ [] := by
  cases r with
  | nil => exact hx
  | cons y rs =>
    show x ++ sep ++ joinStrs sep (y :: rs) ≠ []
    simp [hx]

theorem joinStrs_head? (sep x : Chars) (r : List Chars) (hx : x ≠ []) :
    (joinStrs sep (x :: r)).head? = x.head? := by
  cases r with
  | nil => rfl
  | cons y rs =>
    show (x ++ sep ++ joinStrs sep (y :: rs)).head? = x.head?
    cases x with
    | nil => exact absurd rfl hx
    | cons c t => simp

theorem joinStrs_last_fact (sep : Chars) (es : List Chars)
    (hne : ∀ p ∈ es, p ≠ [])
    (h : ∀ p ∈ es, ∀ a, p.getLast? = some a → isJsWs a = false) :
    ∀ a, (joinStrs sep es).getLast? = some a → isJsWs a = false := by
  induction es with
  | nil => intro a ha; cases ha
  | cons x r ih =>
    cases r with
    | nil => exact h x (by simp)
    | cons y rs =>
      intro a ha
      have hjoin : joinStrs sep (x :: y :: rs) =
          (x ++ sep) ++ joinStrs sep (y :: rs) := rfl
      rw [hjoin, List.getLast?_append] at ha
      have hyne : joinStrs sep (y :: rs) ≠ [] :=
        joinStrs_ne_nil sep y rs (hne y (by simp))
      obtain ⟨b, hb⟩ := Option.isSome_iff_exists.mp
        (List.getLast?_isSome.mpr hyne)
      rw [hb] at ha
      simp only [Option.or_some] at ha
      refine ih (fun p hp => hne p (by simp [hp]))
        (fun p hp => h p (by simp [hp])) a ?_
      rw [hb]
      exact ha

theorem splitChar_joinStrs_comma (e : Chars) (es : List Chars)
    (he : ',' ∉ e) (hes : ∀ p ∈ es, ',' ∉ p) :
    splitChar ',' (joinStrs (',' :: [' ']) (e :: es)) =
      e :: es.map (fun p => ' ' :: p) := by
  induction es generalizing e with
  | nil =>
    show splitChar ',' e = [e]
    exact splitChar_of_not_mem ',' e he
  | cons f fs ih =>
    have hshape : joinStrs (',' :: [' ']) (e :: f :: fs) =
        e ++ ',' :: ' ' :: joinStrs (',' :: [' ']) (f :: fs) := by
      show (e ++ (',' :: [' '])) ++ joinStrs (',' :: [' ']) (f :: fs) = _
      rw [List.append_assoc]
      rfl
    rw [hshape]
    rw [splitChar_append_sep ',' e _ he]
    obtain ⟨p, ps, hps⟩ := splitChar_dest ',' (joinStrs (',' :: [' ']) (f :: fs))
    rw [splitChar_cons_eq ',' ' ' _ p ps hps, if_neg (by decide)]
    have hrec := ih f (hes f (by simp)) (fun p hp => hes p (by simp [hp]))
    rw [hps] at hrec
    have hp : p = f := (List.cons.inj hrec).1
    have hps2 : ps = fs.map (fun q => ' ' :: q) := (List.cons.inj hrec).2
    rw [hp, hps2]
    rfl

theorem map_parse_spaced (fuel : Nat) (es : List GVal)
    (hes : ∀ x ∈ es, isScalarRep x) :
    ((es.map toGodotValueL).map (fun p => ' ' :: p)).map
      (fun item => parseGodotValueF (fuel + 1) (jsTrim item)) = es := by
  induction es with
  | nil => rfl
  | cons x l ih =>
    simp only [List.map_cons]
    obtain ⟨hne, hhead, hlast⟩ := enc_scalar_facts x (hes x (by simp))
    have h1 : jsTrim (' ' :: toGodotValueL x) = toGodotValueL x := by
      rw [jsTrim_cons_ws ' ' _ rfl]
      exact jsTrim_eq_self _ hhead hlast
    have h2 := ih (fun y hy => hes y (by simp [hy]))
    rw [List.cons.injEq]
    constructor
    · rw [h1]
      exact parseF_scalar x (hes x (by simp)) fuel
    · exact h2

/-- Decoding an encoded array of comma-free scalars recovers it. -/
theorem parseF_varr (xs : List GVal)
    (hxs : ∀ x ∈ xs, isScalarRep x ∧ ',' ∉ toGodotValueL x) (fuel : Nat) :
    parseGodotValueF (fuel + 2) (toGodotValueL (GVal.varr xs)) = GVal.varr xs := by
  have hscal : ∀ x ∈ xs, isScalarRep x := fun x hx => (hxs x hx).1
  rw [toGodot_varr_shape xs hscal]
  set JS := joinStrs (',' :: [' ']) (xs.map toGodotValueL) with hJS
  have hlast : ('[' :: (JS ++ [']'])).getLast? = some ']' := by
    simp [List.getLast?_cons, List.getLast?_append]
  have htrim : jsTrim ('[' :: (JS ++ [']'])) = '[' :: (JS ++ [']']) := by
    refine jsTrim_eq_self _ ?_ ?_
    · intro a ha
      simp only [List.head?_cons, Option.some.injEq] at ha
      subst ha
      rfl
    · intro a ha
      rw [hlast] at ha
      rw [← Option.some.inj ha]
      rfl
  rw [show fuel + 2 = (fuel + 1) + 1 from rfl]
  rw [parseF_to_matchers (fuel + 1) _ '[' (JS ++ [']'])
    htrim (by decide) (by decide) (by decide) (by decide)
    (by decide) (by decide) (by decide)]
  unfold parseMatchers
  rw [matchCall2_skip takeNumCap "Vector2".data _
    (expectLit_none _ _ (by simp [List.isPrefixOf, List.cons_append]))]
  dsimp only
  rw [matchCall2_skip takeIntCap "Vector2i".data _
    (expectLit_none _ _ (by simp [List.isPrefixOf, List.cons_append]))]
  dsimp only
  rw [matchCall3_skip "Vector3".data _
    (expectLit_none _ _ (by simp [List.isPrefixOf, List.cons_append]))]
  dsimp only
  rw [matchColor_skip _
    (expectLit_none _ _ (by simp [List.isPrefixOf, List.cons_append]))]
  dsimp only
  rw [matchCall4_skip "Rect2".data _
    (expectLit_none _ _ (by simp [List.isPrefixOf, List.cons_append]))]
  dsimp only
  rw [matchQuotedCall_skip "NodePath".data _
    (expectLit_none _ _ (by simp [List.isPrefixOf, List.cons_append]))]
  dsimp only
  rw [matchQuotedCall_skip "ExtResource".data _
    (expectLit_none _ _ (by simp [List.isPrefixOf, List.cons_append]))]
  dsimp only
  rw [matchQuotedCall_skip "SubResource".data _
    (expectLit_none _ _ (by simp [List.isPrefixOf, List.cons_append]))]
  dsimp only
  rw [if_pos ?harr]
  case harr =>
    have h1 : jsStartsWith ('[' :: (JS ++ [']'])) ['['] = true := by
      simp [jsStartsWith, List.isPrefixOf]
    have h2 : jsEndsWith ('[' :: (JS ++ [']'])) [']'] = true := by
      unfold jsEndsWith
      rw [List.isSuffixOf_iff_suffix]
      exact ⟨'[' :: JS, rfl⟩
    rw [h1, h2]
    rfl
  show (if jsTrim (JS ++ [']']).dropLast = [] then GVal.varr []
      else GVal.varr ((splitChar ',' (jsTrim (JS ++ [']']).dropLast)).map
        (fun item => parseGodotValueF (fuel + 1) (jsTrim item)))) = GVal.varr xs
  rw [List.dropLast_concat]
  cases hxs0 : xs with
  | nil =>
    subst hxs0
    have hJnil : jsTrim JS = [] := by
      rw [hJS]
      rfl
    rw [if_pos hJnil]
  | cons e es =>
    subst hxs0
    obtain ⟨hene, hehead, helast⟩ := enc_scalar_facts e (hscal e (by simp))
    have hmapne : ∀ p ∈ (e :: es).map toGodotValueL, p ≠ [] := by
      intro p hp
      rw [List.mem_map] at hp
      obtain ⟨x, hx, hpx⟩ := hp
      rw [← hpx]
      exact (enc_scalar_facts x (hscal x hx)).1
    have hJtrim : jsTrim JS = JS := by
      refine jsTrim_eq_self _ ?_ ?_
      · rw [hJS]
        rw [show (e :: es).map toGodotValueL =
          toGodotValueL e :: es.map toGodotValueL from rfl]
        rw [joinStrs_head? _ _ _ hene]
        exact hehead
      · refine joinStrs_last_fact _ _ hmapne ?_
        intro p hp
        rw [List.mem_map] at hp
        obtain ⟨x, hx, hpx⟩ := hp
        rw [← hpx]
        exact (enc_scalar_facts x (hscal x hx)).2.2
    rw [hJtrim]
    have hJne : JS ≠ [] := by
      rw [hJS]
      rw [show (e :: es).map toGodotValueL =
        toGodotValueL e :: es.map toGodotValueL from rfl]
      exact joinStrs_ne_nil _ _ _ hene
    rw [if_neg hJne]
    have hsplit : splitChar ',' JS =
        toGodotValueL e :: (es.map toGodotValueL).map (fun p => ' ' :: p) := by
      rw [hJS]
      rw [show (e :: es).map toGodotValueL =
        toGodotValueL e :: es.map toGodotValueL from rfl]
      refine splitChar_joinStrs_comma _ _ ?_ ?_
      · exact (hxs e (by simp)).2
      · intro p hp
        rw [List.mem_map] at hp
        obtain ⟨x, hx, hpx⟩ := hp
        rw [← hpx]
        exact (hxs x (by simp [hx])).2
    rw [hsplit]
    rw [List.map_cons]
    have hehd : jsTrim (toGodotValueL e) = toGodotValueL e :=
      jsTrim_eq_self _ hehead helast
    rw [hehd]
    rw [parseF_scalar e (hscal e (by simp)) fuel]
    rw [map_parse_spaced fuel es (fun x hx => hscal x (by simp [hx]))]

instance (v : GVal) : Decidable (isScalarRep v) :=
  match v with
  | GVal.varr _ => isFalse (fun h => h)
  | GVal.floatLit _ => isFalse (fun h => h)
  | GVal.vbool _ => isTrue trivial
  | GVal.vnull => isTrue trivial
  | GVal.vint _ => isTrue trivial
  | GVal.vstr _ => isTrue trivial
  | GVal.vec2 _ _ => isTrue trivial
  | GVal.vec3 _ _ _ => isTrue trivial
  | GVal.color _ _ _ _ => isTrue trivial
  | GVal.rect2 _ _ _ _ => isTrue trivial

/-- The representable values of the claim, as amended: the scalar variants of
the claim's list (booleans, null, integers, strings — which is also what
`NodePath` expressions decode to — and the four call-expression composites
with integer fields), and one-level arrays whose elements are such scalars
and whose encodings contain no comma. -/
def Representable : GVal → Prop
  | GVal.varr xs => ∀ x ∈ xs, isScalarRep x ∧ ',' ∉ toGodotValueL x
  | GVal.floatLit _ => False
  | _ => True

instance (v : GVal) : Decidable (Representable v) :=
  match v with
  | GVal.varr xs =>
    inferInstanceAs (Decidable (∀ x ∈ xs, isScalarRep x ∧ ',' ∉ toGodotValueL x))
  | GVal.floatLit _ => isFalse (fun h => h)
  | GVal.vbool _ => isTrue trivial
  | GVal.vnull => isTrue trivial
  | GVal.vint _ => isTrue trivial
  | GVal.vstr _ => isTrue trivial
  | GVal.vec2 _ _ => isTrue trivial
  | GVal.vec3 _ _ _ => isTrue trivial
  | GVal.color _ _ _ _ => isTrue trivial
  | GVal.rect2 _ _ _ _ => isTrue trivial

/-- C3: for every representable value v — the scalar variants Vector2, Vector3,
Color (a three-argument Color encodes with explicit alpha 1, so both Color
forms decode to the same value), Rect2, bool, null, integer and string (the
value a NodePath expression decodes to), and one-level arrays of such scalars
whose element encodings are comma-free — decode (encode v) = v, where decode
is parseGodotValue and encode is toGodotValue. The comma-freeness restriction
on array elements amends the claim: the decoder splits array bodies naively on
commas, so a mixed array holding a string that contains a comma does not
round-trip (see the counterexample). -/
theorem decode_encode_roundtrip (v : GVal) (h : Representable v) :
    parseGodotValue (toGodotValue v) = v := by
  show parseGodotValueF ((toGodotValueL v).length + 1) (toGodotValueL v) = v
  cases v with
  | varr xs =>
    have hxs : ∀ x ∈ xs, isScalarRep x ∧ ',' ∉ toGodotValueL x := h
    have hlen : (toGodotValueL (GVal.varr xs)).length =
        (joinStrs (',' :: [' ']) (xs.map toGodotValueL)).length + 2 := by
      rw [toGodot_varr_shape xs (fun x hx => (hxs x hx).1)]
      simp
    rw [hlen, show (joinStrs (',' :: [' ']) (xs.map toGodotValueL)).length + 2 + 1 =
      ((joinStrs (',' :: [' ']) (xs.map toGodotValueL)).length + 1) + 2 from by omega]
    exact parseF_varr xs hxs _
  | floatLit s => exact h.elim
  | vbool b => exact parseF_scalar (GVal.vbool b) trivial _
  | vnull => exact parseF_scalar GVal.vnull trivial _
  | vint n => exact parseF_scalar (GVal.vint n) trivial _
  | vstr s => exact parseF_scalar (GVal.vstr s) trivial _
  | vec2 a b => exact parseF_scalar (GVal.vec2 a b) trivial _
  | vec3 a b c => exact parseF_scalar (GVal.vec3 a b c) trivial _
  | color a b c d => exact parseF_scalar (GVal.color a b c d) trivial _
  | rect2 a b c d => exact parseF_scalar (GVal.rect2 a b c d) trivial _

/-- C3 counterexample: the mixed one-level array [1, "a,b"] is a value built
from the claim's listed variants, yet it does not round-trip: the decoder
splits the encoded array body `[1, "a,b"]` naively on commas, so the string
element is torn into the two fallback strings `"a` and `b"`. -/
theorem decode_encode_counterexample :
    parseGodotValue (toGodotValue (GVal.varr [GVal.vint 1, GVal.vstr "a,b"])) =
      GVal.varr [GVal.vint 1, GVal.vstr "\"a", GVal.vstr "b\""] ∧
    GVal.varr [GVal.vint 1, GVal.vstr "\"a", GVal.vstr "b\""] ≠
      GVal.varr [GVal.vint 1, GVal.vstr "a,b"] := by
  refine ⟨rfl, ?_⟩
  intro hcontr
  injection hcontr with hlist
  injection hlist with h1 h2
  injection h2 with h3 h4
  injection h3 with h5
  exact absurd h5 (by decide)

/-- C3 witness: the round-trip theorem applied at concrete representable
values of each listed variant, hypotheses discharged by evaluation. -/
theorem decode_encode_roundtrip_witness :
    (Representable (GVal.vec2 3 (-4)) ∧
      parseGodotValue (toGodotValue (GVal.vec2 3 (-4))) = GVal.vec2 3 (-4)) ∧
    (Representable (GVal.vec3 1 2 3) ∧
      parseGodotValue (toGodotValue (GVal.vec3 1 2 3)) = GVal.vec3 1 2 3) ∧
    (Representable (GVal.color 1 0 0 1) ∧
      parseGodotValue (toGodotValue (GVal.color 1 0 0 1)) = GVal.color 1 0 0 1) ∧
    (Representable (GVal.rect2 0 0 40 32) ∧
      parseGodotValue (toGodotValue (GVal.rect2 0 0 40 32)) = GVal.rect2 0 0 40 32) ∧
    (Representable (GVal.varr [GVal.vint 7, GVal.vbool true, GVal.vnull,
        GVal.vstr "hi"]) ∧
      parseGodotValue (toGodotValue (GVal.varr [GVal.vint 7, GVal.vbool true,
        GVal.vnull, GVal.vstr "hi"])) =
        GVal.varr [GVal.vint 7, GVal.vbool true, GVal.vnull, GVal.vstr "hi"]) :=
  ⟨⟨by decide, decode_encode_roundtrip _ (by decide)⟩,
   ⟨by decide, decode_encode_roundtrip _ (by decide)⟩,
   ⟨by decide, decode_encode_roundtrip _ (by decide)⟩,
   ⟨by decide, decode_encode_roundtrip _ (by decide)⟩,
   ⟨by decide, decode_encode_roundtrip _ (by decide)⟩⟩

/-- The template-literal attribute pattern `key"nodeName"` (e.g. the JS
expressions `name="${nodeName}"`, `from="${nodeName}"`). -/
def attrPat (key nodeName : Chars) : Chars := key ++ '"' :: (nodeName ++ ['"'])

/-- The node-declaration test of `removeNodeFromContent` and
`setNodePropertyInContent`: the trimmed line starts with `[node` and contains
the substring `name="<nodeName>"`. -/
def isNodeDeclFor (nodeName line : Chars) : Bool :=
  jsStartsWith (jsTrim line) "[node".data &&
    containsSub (attrPat "name=".data nodeName) (jsTrim line)

/-- The connection filter of `removeNodeFromContent`: a line is kept unless it
is a `[connection` line mentioning `from="<nodeName>"` or `to="<nodeName>"`. -/
def keepsConnLine (nodeName line : Chars) : Bool :=
  if jsStartsWith (jsTrim line) "[connection".data then
    !containsSub (attrPat "from=".data nodeName) (jsTrim line) &&
    !containsSub (attrPat "to=".data nodeName) (jsTrim line)
  else true

/-- The line loop of `removeNodeFromContent`. The JS mutates a `skipping`
flag; here the flag is threaded as the Bool argument, and the in-place update
`skipping = false` followed by `if (!skipping) push` is flattened into the
second branch. -/
def removeLoop (nodeName : Chars) : Bool → List Chars → List Chars
  | _, [] => []
  | skipping, line :: rest =>
    if isNodeDeclFor nodeName line then removeLoop nodeName true rest
    else if skipping && jsStartsWith (jsTrim line) ['['] then
      line :: removeLoop nodeName false rest
    else if skipping then removeLoop nodeName skipping rest
    else line :: removeLoop nodeName skipping rest

/-- `removeNodeFromContent` on character lists. -/
def removeNodeFromContentL (content nodeName : Chars) : Chars :=
  joinChar '\n'
    ((removeLoop nodeName false (splitChar '\n' content)).filter
      (keepsConnLine nodeName))

/-- `removeNodeFromContent` (scene-parser.ts.bak, lines 205–237). -/
def removeNodeFromContent (content nodeName : String) : String :=
  String.mk (removeNodeFromContentL content.data nodeName.data)

theorem removeLoop_subset (X : Chars) (b : Bool) (ls : List Chars) :
    ∀ l ∈ removeLoop X b ls, l ∈ ls := by
  induction ls generalizing b with
  | nil => intro l hl; exact absurd hl (by simp [removeLoop])
  | cons line rest ih =>
    intro l hl
    by_cases hd : isNodeDeclFor X line = true
    · rw [removeLoop, if_pos hd] at hl
      exact List.mem_cons_of_mem line (ih true l hl)
    · rw [removeLoop, if_neg hd] at hl
      by_cases hb : (b && jsStartsWith (jsTrim line) ['[']) = true
      · rw [if_pos hb] at hl
        rcases List.mem_cons.mp hl with h | h
        · exact h ▸ List.mem_cons_self line rest
        · exact List.mem_cons_of_mem line (ih false l h)
      · rw [if_neg hb] at hl
        by_cases hbb : b = true
        · rw [if_pos hbb] at hl
          exact List.mem_cons_of_mem line (ih b l hl)
        · rw [if_neg hbb] at hl
          rcases List.mem_cons.mp hl with h | h
          · exact h ▸ List.mem_cons_self line rest
          · exact List.mem_cons_of_mem line (ih b l h)

theorem removeLoop_sound (X : Chars) (b : Bool) (ls : List Chars) :
    ∀ l ∈ removeLoop X b ls, isNodeDeclFor X l = false := by
  induction ls generalizing b with
  | nil => intro l hl; exact absurd hl (by simp [removeLoop])
  | cons line rest ih =>
    intro l hl
    by_cases hd : isNodeDeclFor X line = true
    · rw [removeLoop, if_pos hd] at hl
      exact ih true l hl
    · rw [removeLoop, if_neg hd] at hl
      by_cases hb : (b && jsStartsWith (jsTrim line) ['[']) = true
      · rw [if_pos hb] at hl
        rcases List.mem_cons.mp hl with h | h
        · exact h ▸ Bool.eq_false_iff.mpr hd
        · exact ih false l h
      · rw [if_neg hb] at hl
        by_cases hbb : b = true
        · rw [if_pos hbb] at hl
          exact ih b l hl
        · rw [if_neg hbb] at hl
          rcases List.mem_cons.mp hl with h | h
          · exact h ▸ Bool.eq_false_iff.mpr hd
          · exact ih b l h

theorem removeLoop_no_trigger (X : Chars) (pre rest : List Chars)
    (h : ∀ l ∈ pre, isNodeDeclFor X l = false) :
    removeLoop X false (pre ++ rest) = pre ++ removeLoop X false rest := by
  induction pre with
  | nil => rfl
  | cons line pre' ih =>
    rw [List.cons_append, removeLoop,
      if_neg (by rw [h line (List.mem_cons_self line pre')]; exact Bool.false_ne_true)]
    simp only [Bool.false_and, Bool.false_eq_true, if_false]
    rw [ih (fun l hl => h l (List.mem_cons_of_mem line hl)), List.cons_append]

theorem startsWith_node_sub (s : Chars) (h : jsStartsWith s ['['] = false) :
    jsStartsWith s "[node".data = false := by
  cases s with
  | nil => rfl
  | cons x xs =>
    simp only [jsStartsWith, List.isPrefixOf, Bool.and_eq_false_iff] at h ⊢
    rcases h with h | h
    · exact Or.inl h
    · simp [List.isPrefixOf] at h

theorem isNodeDeclFor_false_of_no_bracket (X l : Chars)
    (h : jsStartsWith (jsTrim l) ['['] = false) : isNodeDeclFor X l = false := by
  rw [isNodeDeclFor, startsWith_node_sub _ h, Bool.false_and]

theorem removeLoop_skipping (X : Chars) (mid rest : List Chars)
    (h : ∀ l ∈ mid, jsStartsWith (jsTrim l) ['['] = false) :
    removeLoop X true (mid ++ rest) = removeLoop X true rest := by
  induction mid with
  | nil => rfl
  | cons line mid' ih =>
    have hline := h line (List.mem_cons_self line mid')
    rw [List.cons_append, removeLoop,
      if_neg (by rw [isNodeDeclFor_false_of_no_bracket X line hline]; exact Bool.false_ne_true),
      if_neg (by rw [Bool.true_and, hline]; exact Bool.false_ne_true),
      if_pos rfl]
    exact ih (fun l hl => h l (List.mem_cons_of_mem line hl))

theorem removeLoop_header (X : Chars) (hdr : Chars) (rest : List Chars)
    (hb : jsStartsWith (jsTrim hdr) ['['] = true)
    (hn : isNodeDeclFor X hdr = false) :
    removeLoop X true (hdr :: rest) = hdr :: removeLoop X false rest := by
  rw [removeLoop, if_neg (by rw [hn]; exact Bool.false_ne_true),
    if_pos (by rw [Bool.true_and, hb])]

theorem removeLoop_decl (X : Chars) (d : Chars) (rest : List Chars)
    (hd : isNodeDeclFor X d = true) :
    removeLoop X false (d :: rest) = removeLoop X true rest := by
  rw [removeLoop, if_pos hd]

theorem removeLoop_section (X : Chars) (pre m post : List Chars) (d hdr : Chars)
    (hpre : ∀ l ∈ pre, isNodeDeclFor X l = false)
    (hd : isNodeDeclFor X d = true)
    (hm : ∀ l ∈ m, jsStartsWith (jsTrim l) ['['] = false)
    (hh : jsStartsWith (jsTrim hdr) ['['] = true)
    (hhn : isNodeDeclFor X hdr = false) :
    removeLoop X false (pre ++ d :: (m ++ hdr :: post)) =
      pre ++ hdr :: removeLoop X false post := by
  rw [removeLoop_no_trigger X pre _ hpre, removeLoop_decl X d _ hd,
    removeLoop_skipping X m _ hm, removeLoop_header X hdr post hh hhn]

theorem removeLoop_id (X : Chars) (ls : List Chars)
    (h : ∀ l ∈ ls, isNodeDeclFor X l = false) :
    removeLoop X false ls = ls := by
  have h2 := removeLoop_no_trigger X ls [] h
  simpa [removeLoop] using h2

theorem stringMk_data (s : String) : String.mk s.data = s := rfl

theorem removeNode_lines (content nodeName : String) :
    ∀ l ∈ splitChar '\n' (removeNodeFromContent content nodeName).data,
      isNodeDeclFor nodeName.data l = false ∧
        keepsConnLine nodeName.data l = true := by
  intro l hl
  have hout : (removeNodeFromContent content nodeName).data =
      joinChar '\n' ((removeLoop nodeName.data false
        (splitChar '\n' content.data)).filter (keepsConnLine nodeName.data)) := rfl
  rw [hout] at hl
  by_cases hne : (removeLoop nodeName.data false
      (splitChar '\n' content.data)).filter (keepsConnLine nodeName.data) = []
  · rw [hne] at hl
    have hl2 : l = [] := by simpa [joinChar, splitChar] using hl
    subst hl2
    constructor
    · rfl
    · rfl
  · rw [splitChar_joinChar '\n' _ hne ?hfree] at hl
    case hfree =>
      intro p hp
      exact splitChar_sep_not_mem '\n' content.data p
        (removeLoop_subset nodeName.data false _ p (List.mem_of_mem_filter hp))
    refine ⟨removeLoop_sound nodeName.data false _ l (List.mem_of_mem_filter hl), ?_⟩
    exact List.of_mem_filter hl

/-- C4: removeNode deletes the matched `[node name="X" ...]` declaration line
and every following line up to (not including) the next section header, and
filters out every `[connection ...]` line mentioning `from="X"` or `to="X"`,
so no line of the output is a node declaration for X or a connection
referencing X. The no-op part of the claim is amended: because the connection
filter runs unconditionally, the operation is a no-op only when the text has
no node declaration for X AND no connection line referencing X (see the
counterexample for a text without the node where the operation still edits). -/
theorem removeNode_spec (content nodeName : String) :
    (∀ l ∈ splitChar '\n' (removeNodeFromContent content nodeName).data,
      isNodeDeclFor nodeName.data l = false ∧
        keepsConnLine nodeName.data l = true) ∧
    (∀ pre m post : List Chars, ∀ d hdr : Chars,
      splitChar '\n' content.data = pre ++ d :: (m ++ hdr :: post) →
      (∀ l ∈ pre, isNodeDeclFor nodeName.data l = false) →
      isNodeDeclFor nodeName.data d = true →
      (∀ l ∈ m, jsStartsWith (jsTrim l) ['['] = false) →
      jsStartsWith (jsTrim hdr) ['['] = true →
      isNodeDeclFor nodeName.data hdr = false →
      (removeNodeFromContent content nodeName).data =
        joinChar '\n' ((pre ++ hdr :: removeLoop nodeName.data false post).filter
          (keepsConnLine nodeName.data))) ∧
    ((∀ l ∈ splitChar '\n' content.data,
        isNodeDeclFor nodeName.data l = false ∧
          keepsConnLine nodeName.data l = true) →
      removeNodeFromContent content nodeName = content) := by
  refine ⟨removeNode_lines content nodeName, ?_, ?_⟩
  · intro pre m post d hdr hsplit hpre hd hm hh hhn
    show joinChar '\n' ((removeLoop nodeName.data false
        (splitChar '\n' content.data)).filter (keepsConnLine nodeName.data)) = _
    rw [hsplit, removeLoop_section nodeName.data pre m post d hdr hpre hd hm hh hhn]
  · intro h
    have h1 : removeLoop nodeName.data false (splitChar '\n' content.data) =
        splitChar '\n' content.data :=
      removeLoop_id nodeName.data _ (fun l hl => (h l hl).1)
    have h2 : (splitChar '\n' content.data).filter (keepsConnLine nodeName.data) =
        splitChar '\n' content.data :=
      List.filter_eq_self.mpr (fun l hl => (h l hl).2)
    show String.mk (joinChar '\n' ((removeLoop nodeName.data false
        (splitChar '\n' content.data)).filter (keepsConnLine nodeName.data))) = content
    rw [h1, h2, joinChar_splitChar, stringMk_data]

/-- C4 counterexample: a text holding a `[connection ... from="X" ...]` line
but no node declaration named X is still edited — the connection line is
deleted — so removeNode is not a no-op on texts lacking the node. -/
theorem removeNode_counterexample :
    (∀ l ∈ splitChar '\n'
        ("[connection signal=\"pressed\" from=\"X\" to=\"Y\"]" : String).data,
      isNodeDeclFor ("X" : String).data l = false) ∧
    removeNodeFromContent "[connection signal=\"pressed\" from=\"X\" to=\"Y\"]" "X" = "" ∧
    ("" : String) ≠ "[connection signal=\"pressed\" from=\"X\" to=\"Y\"]" := by
  refine ⟨by decide, rfl, by decide⟩

/-- C4 witness: the removeNode theorem applied at a concrete scene — the X
section (declaration plus its property line) is cut out, the X connection is
filtered — and the amended no-op applied at a text without X references. -/
theorem removeNode_spec_witness :
    (removeNodeFromContent
        "[node name=\"X\"]\nfoo = 1\n[node name=\"Y\"]\n[connection signal=\"s\" from=\"X\" to=\"Y\"]"
        "X").data =
      joinChar '\n' (([] ++ "[node name=\"Y\"]".data ::
          removeLoop ("X" : String).data false
            ["[connection signal=\"s\" from=\"X\" to=\"Y\"]".data]).filter
        (keepsConnLine ("X" : String).data)) ∧
    removeNodeFromContent "hello\nworld" "X" = "hello\nworld" :=
  ⟨(removeNode_spec
        "[node name=\"X\"]\nfoo = 1\n[node name=\"Y\"]\n[connection signal=\"s\" from=\"X\" to=\"Y\"]"
        "X").2.1
      [] ["foo = 1".data] ["[connection signal=\"s\" from=\"X\" to=\"Y\"]".data]
      "[node name=\"X\"]".data "[node name=\"Y\"]".data
      (by decide) (by decide) (by decide) (by decide) (by decide) (by decide),
    (removeNode_spec "hello\nworld" "X").2.2 (by decide)⟩

/-- C10: when the scene holds two node declaration lines carrying the same
`name="X"` attribute (separated by at least one other section, as when the
duplicates have different parents), removeNode deletes both sections and their
property lines: matching is by the substring `name="X"` on a `[node` line,
with no parent qualification. -/
theorem removeNode_removes_all_same_name (content nodeName : String)
    (pre m1 mid2 m2 post : List Chars) (d1 hdr1 d2 hdr2 : Chars)
    (hsplit : splitChar '\n' content.data =
      pre ++ d1 :: (m1 ++ hdr1 :: (mid2 ++ d2 :: (m2 ++ hdr2 :: post))))
    (hpre : ∀ l ∈ pre, isNodeDeclFor nodeName.data l = false)
    (hd1 : isNodeDeclFor nodeName.data d1 = true)
    (hm1 : ∀ l ∈ m1, jsStartsWith (jsTrim l) ['['] = false)
    (hh1 : jsStartsWith (jsTrim hdr1) ['['] = true)
    (hh1n : isNodeDeclFor nodeName.data hdr1 = false)
    (hmid2 : ∀ l ∈ mid2, isNodeDeclFor nodeName.data l = false)
    (hd2 : isNodeDeclFor nodeName.data d2 = true)
    (hm2 : ∀ l ∈ m2, jsStartsWith (jsTrim l) ['['] = false)
    (hh2 : jsStartsWith (jsTrim hdr2) ['['] = true)
    (hh2n : isNodeDeclFor nodeName.data hdr2 = false) :
    (removeNodeFromContent content nodeName).data =
      joinChar '\n'
        ((pre ++ hdr1 :: (mid2 ++ hdr2 :: removeLoop nodeName.data false post)).filter
          (keepsConnLine nodeName.data)) := by
  show joinChar '\n' ((removeLoop nodeName.data false
      (splitChar '\n' content.data)).filter (keepsConnLine nodeName.data)) = _
  rw [hsplit, removeLoop_section nodeName.data pre m1 _ d1 hdr1 hpre hd1 hm1 hh1 hh1n,
    removeLoop_section nodeName.data mid2 m2 post d2 hdr2 hmid2 hd2 hm2 hh2 hh2n]

/-- C10 witness: both sections declaring `name="X"` (one parented at the root,
one under Y) are deleted from a concrete scene. -/
theorem removeNode_removes_all_same_name_witness :
    (removeNodeFromContent
        "[node name=\"X\" parent=\".\"]\na = 1\n[node name=\"Y\"]\ny = 0\n[node name=\"X\" parent=\"Y\"]\nb = 2\n[node name=\"Z\"]\nc = 3"
        "X").data =
      joinChar '\n'
        (([] ++ "[node name=\"Y\"]".data ::
            (["y = 0".data] ++ "[node name=\"Z\"]".data ::
              removeLoop ("X" : String).data false ["c = 3".data])).filter
          (keepsConnLine ("X" : String).data)) :=
  removeNode_removes_all_same_name
    "[node name=\"X\" parent=\".\"]\na = 1\n[node name=\"Y\"]\ny = 0\n[node name=\"X\" parent=\"Y\"]\nb = 2\n[node name=\"Z\"]\nc = 3"
    "X"
    [] ["a = 1".data] ["y = 0".data] ["b = 2".data] ["c = 3".data]
    "[node name=\"X\" parent=\".\"]".data "[node name=\"Y\"]".data
    "[node name=\"X\" parent=\"Y\"]".data "[node name=\"Z\"]".data
    (by decide) (by decide) (by decide) (by decide) (by decide) (by decide)
    (by decide) (by decide) (by decide) (by decide) (by decide)

/-- JavaScript `content.replace(new RegExp(pat, 'g'), repl)` for a pattern
built from a name without regex metacharacters (the claims exercise
alphanumeric node names, for which the constructed RegExp is a literal):
leftmost-first global replacement, resuming after each match. -/
def replaceLitF (pat repl : Chars) : Nat → Chars → Chars
  | 0, s => s
  | _, [] => []
  | fuel + 1, c :: rest =>
    if pat ≠ [] ∧ pat.isPrefixOf (c :: rest) = true then
      repl ++ replaceLitF pat repl fuel (List.drop (pat.length - 1) rest)
    else c :: replaceLitF pat repl fuel rest

def replaceLit (pat repl s : Chars) : Chars := replaceLitF pat repl s.length s

/-- Match `(/[^"]*)"` at the start of `t2`: returns the first capture-2
candidate and the text after the closing quote. `[^"]*` is forced up to the
first quote, which the final `"` of the pattern then consumes. -/
def p3Suffix (t2 : Chars) : Option (Chars × Chars) :=
  match t2 with
  | [] => none
  | c :: rest =>
    if c = '/' then
      match rest.dropWhile (fun x => !(x = '"')) with
      | [] => none
      | _ :: tail => some ('/' :: rest.takeWhile (fun x => !(x = '"')), tail)
    else none

/-- Backtracking search for the group `([^"]*/)` of the pattern
`parent="([^"]*/)old(/[^"]*)"` applied to `t` (the text after `parent="`):
greedy, so group lengths are tried from `k` downwards; on success returns
(capture 1, capture 2, text after the closing quote). -/
def p3Group (old t : Chars) : Nat → Option (Chars × Chars × Chars)
  | 0 => none
  | k + 1 =>
    if (List.take (k + 1) t).length = k + 1 ∧
        (∀ c ∈ List.take (k + 1) t, c ≠ '"') ∧
        (List.take (k + 1) t).getLast? = some '/' ∧
        old.isPrefixOf (List.drop (k + 1) t) = true then
      match p3Suffix (List.drop (k + 1 + old.length) t) with
      | some (cap2, tail) => some (List.take (k + 1) t, cap2, tail)
      | none => p3Group old t k
    else p3Group old t k

/-- Global replace of `parent="([^"]*/)old(/[^"]*)"` by
`parent="$1new$2"`. -/
def replaceP3F (old new : Chars) : Nat → Chars → Chars
  | 0, s => s
  | _, [] => []
  | fuel + 1, c :: rest =>
    if "parent=\"".data.isPrefixOf (c :: rest) = true then
      match p3Group old (List.drop 8 (c :: rest)) (List.drop 8 (c :: rest)).length with
      | some (cap1, cap2, tail) =>
        "parent=\"".data ++ cap1 ++ new ++ cap2 ++ '"' :: replaceP3F old new fuel tail
      | none => c :: replaceP3F old new fuel rest
    else c :: replaceP3F old new fuel rest

def replaceP3 (old new s : Chars) : Chars := replaceP3F old new s.length s

/-- Backtracking search for the group `([^"]*/)` of the pattern
`parent="([^"]*/)old"` applied to `t`: on success returns (capture 1, text
after the closing quote). -/
def p4Group (old t : Chars) : Nat → Option (Chars × Chars)
  | 0 => none
  | k + 1 =>
    if (List.take (k + 1) t).length = k + 1 ∧
        (∀ c ∈ List.take (k + 1) t, c ≠ '"') ∧
        (List.take (k + 1) t).getLast? = some '/' ∧
        old.isPrefixOf (List.drop (k + 1) t) = true ∧
        (List.drop (k + 1 + old.length) t).head? = some '"' then
      some (List.take (k + 1) t, List.drop (k + 1 + old.length + 1) t)
    else p4Group old t k

/-- Global replace of `parent="([^"]*/)old"` by `parent="$1new"`. -/
def replaceP4F (old new : Chars) : Nat → Chars → Chars
  | 0, s => s
  | _, [] => []
  | fuel + 1, c :: rest =>
    if "parent=\"".data.isPrefixOf (c :: rest) = true then
      match p4Group old (List.drop 8 (c :: rest)) (List.drop 8 (c :: rest)).length with
      | some (cap1, tail) =>
        "parent=\"".data ++ cap1 ++ new ++ '"' :: replaceP4F old new fuel tail
      | none => c :: replaceP4F old new fuel rest
    else c :: replaceP4F old new fuel rest

def replaceP4 (old new s : Chars) : Chars := replaceP4F old new s.length s

/-- `renameNodeInContent` (scene-parser.ts.bak, lines 242–254) on character
lists: the six sequential global replaces. -/
def renameNodeInContentL (content old new : Chars) : Chars :=
  replaceLit (attrPat "to=".data old) (attrPat "to=".data new)
    (replaceLit (attrPat "from=".data old) (attrPat "from=".data new)
      (replaceP4 old new
        (replaceP3 old new
          (replaceLit (attrPat "parent=".data old) (attrPat "parent=".data new)
            (replaceLit (attrPat "name=".data old) (attrPat "name=".data new)
              content)))))

def renameNodeInContent (content old new : String) : String :=
  String.mk (renameNodeInContentL content.data old.data new.data)

/-- C5, amended: renameNode rewrites `name="A"` to `name="B"`, `parent="A"` to
`parent="B"`, and occurrences of A as a path segment inside parent attributes
that are PRECEDED BY a slash — `parent="prefix/A"` and
`parent="prefix/A/suffix"` are rewritten — while names merely containing A
(`"AA"`, `"XA"`) are untouched, and `from="A"`/`to="A"` in connection lines
are rewritten; but, amending the claim, the leading segment of a parent path
is NOT rewritten: both path patterns require a `/` before the old name, so
`parent="A/child"` stays `parent="A/child"` (the claim said it becomes
`parent="B/child"`; see the counterexample). -/
theorem renameNode_rewrites :
    renameNodeInContent "[node name=\"A\" type=\"Node2D\"]" "A" "B" =
      "[node name=\"B\" type=\"Node2D\"]" ∧
    renameNodeInContent "[node name=\"C\" parent=\"A\"]" "A" "B" =
      "[node name=\"C\" parent=\"B\"]" ∧
    renameNodeInContent "[node name=\"C\" parent=\"root/A\"]" "A" "B" =
      "[node name=\"C\" parent=\"root/B\"]" ∧
    renameNodeInContent "[node name=\"C\" parent=\"root/A/sub\"]" "A" "B" =
      "[node name=\"C\" parent=\"root/B/sub\"]" ∧
    renameNodeInContent "[node name=\"AA\"]\n[node name=\"XA\" parent=\"AA/Q\"]" "A" "B" =
      "[node name=\"AA\"]\n[node name=\"XA\" parent=\"AA/Q\"]" ∧
    renameNodeInContent "[connection signal=\"s\" from=\"A\" to=\"A\"]" "A" "B" =
      "[connection signal=\"s\" from=\"B\" to=\"B\"]" ∧
    renameNodeInContent "[node name=\"Sub\" parent=\"A/child\"]" "A" "B" =
      "[node name=\"Sub\" parent=\"A/child\"]" :=
  ⟨rfl, rfl, rfl, rfl, rfl, rfl, rfl⟩

/-- C5 counterexample: renaming A to B leaves `parent="A/child"` unchanged —
the two parent-path regexes demand a slash before the old name, so the
leading path segment never matches — refuting the claim that it becomes
`parent="B/child"`. -/
theorem renameNode_counterexample :
    renameNodeInContent "[node name=\"Sub\" parent=\"A/child\"]" "A" "B" ≠
      "[node name=\"Sub\" parent=\"B/child\"]" := by
  decide

/-- The line `${property} = ${value}` that `setNodePropertyInContent`
inserts. -/
def propLine (p v : Chars) : Chars := p ++ ' ' :: '=' :: ' ' :: v

/-- The line loop of `setNodePropertyInContent` (scene-parser.ts.bak, lines
259–299). The JS mutates `inTargetNode` and `propertySet`; here they are the
two Bool arguments, and the fall-through after the header branch (which has
set `inTargetNode = false`, so the property branch cannot fire) is flattened
into pushing the line in that branch. The final non-list case renders the
post-loop `if (inTargetNode && !propertySet)` insertion. -/
def setLoop (X p v : Chars) : Bool → Bool → List Chars → List Chars
  | inT, pSet, [] => if inT = true ∧ pSet = false then [propLine p v] else []
  | inT, pSet, line :: rest =>
    if isNodeDeclFor X line = true then
      line :: setLoop X p v true pSet rest
    else if inT = true ∧ jsStartsWith (jsTrim line) ['['] = true then
      if pSet = false then
        propLine p v :: line :: setLoop X p v false true rest
      else
        line :: setLoop X p v false pSet rest
    else if inT = true ∧ jsStartsWith (jsTrim line) (p ++ [' ']) = true then
      propLine p v :: setLoop X p v inT true rest
    else
      line :: setLoop X p v inT pSet rest

/-- `setNodePropertyInContent` on character lists. -/
def setNodePropertyInContentL (content X p v : Chars) : Chars :=
  joinChar '\n' (setLoop X p v false false (splitChar '\n' content))

def setNodePropertyInContent (content nodeName property value : String) : String :=
  String.mk (setNodePropertyInContentL content.data nodeName.data
    property.data value.data)

theorem setLoop_cons_decl (X p v : Chars) (inT pSet : Bool) (line : Chars)
    (rest : List Chars) (h : isNodeDeclFor X line = true) :
    setLoop X p v inT pSet (line :: rest) =
      line :: setLoop X p v true pSet rest := by
  rw [setLoop, if_pos h]

theorem setLoop_cons_hdr_unset (X p v : Chars) (line : Chars) (rest : List Chars)
    (hd : isNodeDeclFor X line = false)
    (hh : jsStartsWith (jsTrim line) ['['] = true) :
    setLoop X p v true false (line :: rest) =
      propLine p v :: line :: setLoop X p v false true rest := by
  rw [setLoop, if_neg (by simp [hd]), if_pos ⟨rfl, hh⟩, if_pos rfl]

theorem setLoop_cons_hdr_set (X p v : Chars) (line : Chars) (rest : List Chars)
    (hd : isNodeDeclFor X line = false)
    (hh : jsStartsWith (jsTrim line) ['['] = true) :
    setLoop X p v true true (line :: rest) =
      line :: setLoop X p v false true rest := by
  rw [setLoop, if_neg (by simp [hd]), if_pos ⟨rfl, hh⟩, if_neg (by simp)]

theorem setLoop_cons_prop (X p v : Chars) (pSet : Bool) (line : Chars)
    (rest : List Chars) (hd : isNodeDeclFor X line = false)
    (hh : jsStartsWith (jsTrim line) ['['] = false)
    (hp : jsStartsWith (jsTrim line) (p ++ [' ']) = true) :
    setLoop X p v true pSet (line :: rest) =
      propLine p v :: setLoop X p v true true rest := by
  rw [setLoop, if_neg (by simp [hd]), if_neg (by simp [hh]), if_pos ⟨rfl, hp⟩]

theorem setLoop_cons_other (X p v : Chars) (pSet : Bool) (line : Chars)
    (rest : List Chars) (hd : isNodeDeclFor X line = false)
    (hh : jsStartsWith (jsTrim line) ['['] = false)
    (hp : jsStartsWith (jsTrim line) (p ++ [' ']) = false) :
    setLoop X p v true pSet (line :: rest) =
      line :: setLoop X p v true pSet rest := by
  rw [setLoop, if_neg (by simp [hd]), if_neg (by simp [hh]), if_neg (by simp [hp])]

theorem setLoop_cons_out (X p v : Chars) (pSet : Bool) (line : Chars)
    (rest : List Chars) (hd : isNodeDeclFor X line = false) :
    setLoop X p v false pSet (line :: rest) =
      line :: setLoop X p v false pSet rest := by
  rw [setLoop, if_neg (by simp [hd]), if_neg (by simp), if_neg (by simp)]

theorem setLoop_idem (X p v : Chars)
    (f1 : isNodeDeclFor X (propLine p v) = false)
    (f2 : jsStartsWith (jsTrim (propLine p v)) ['['] = false)
    (f3 : jsStartsWith (jsTrim (propLine p v)) (p ++ [' ']) = true) :
    ∀ ls : List Chars, ∀ inT pSet : Bool,
      setLoop X p v inT pSet (setLoop X p v inT pSet ls) =
        setLoop X p v inT pSet ls := by
  intro ls
  induction ls with
  | nil =>
    intro inT pSet
    cases inT with
    | false => rfl
    | true =>
      cases pSet with
      | true => rfl
      | false =>
        show setLoop X p v true false [propLine p v] = _
        rw [setLoop_cons_prop X p v false (propLine p v) [] f1 f2 f3]
        rfl
  | cons line rest ih =>
    intro inT pSet
    by_cases hd : isNodeDeclFor X line = true
    · rw [setLoop_cons_decl X p v inT pSet line rest hd,
        setLoop_cons_decl X p v inT pSet line _ hd, ih true pSet]
    · have hd' : isNodeDeclFor X line = false := Bool.eq_false_iff.mpr hd
      cases inT with
      | false =>
        rw [setLoop_cons_out X p v pSet line rest hd',
          setLoop_cons_out X p v pSet line _ hd', ih false pSet]
      | true =>
        by_cases hh : jsStartsWith (jsTrim line) ['['] = true
        · cases pSet with
          | false =>
            rw [setLoop_cons_hdr_unset X p v line rest hd' hh,
              setLoop_cons_prop X p v false (propLine p v) _ f1 f2 f3,
              setLoop_cons_hdr_set X p v line _ hd' hh, ih false true]
          | true =>
            rw [setLoop_cons_hdr_set X p v line rest hd' hh,
              setLoop_cons_hdr_set X p v line _ hd' hh, ih false true]
        · have hh' : jsStartsWith (jsTrim line) ['['] = false :=
            Bool.eq_false_iff.mpr hh
          by_cases hp : jsStartsWith (jsTrim line) (p ++ [' ']) = true
          · rw [setLoop_cons_prop X p v pSet line rest hd' hh' hp,
              setLoop_cons_prop X p v pSet (propLine p v) _ f1 f2 f3, ih true true]
          · have hp' : jsStartsWith (jsTrim line) (p ++ [' ']) = false :=
              Bool.eq_false_iff.mpr hp
            rw [setLoop_cons_other X p v pSet line rest hd' hh' hp',
              setLoop_cons_other X p v pSet line _ hd' hh' hp', ih true pSet]

theorem setLoop_ne_nil (X p v : Chars) (inT pSet : Bool) (line : Chars)
    (rest : List Chars) : setLoop X p v inT pSet (line :: rest) ≠ [] := by
  by_cases hd : isNodeDeclFor X line = true
  · rw [setLoop_cons_decl X p v inT pSet line rest hd]; exact List.cons_ne_nil _ _
  · have hd' := Bool.eq_false_iff.mpr hd
    cases inT with
    | false => rw [setLoop_cons_out X p v pSet line rest hd']; exact List.cons_ne_nil _ _
    | true =>
      by_cases hh : jsStartsWith (jsTrim line) ['['] = true
      · cases pSet with
        | false =>
          rw [setLoop_cons_hdr_unset X p v line rest hd' hh]; exact List.cons_ne_nil _ _
        | true =>
          rw [setLoop_cons_hdr_set X p v line rest hd' hh]; exact List.cons_ne_nil _ _
      · have hh' := Bool.eq_false_iff.mpr hh
        by_cases hp : jsStartsWith (jsTrim line) (p ++ [' ']) = true
        · rw [setLoop_cons_prop X p v pSet line rest hd' hh' hp]
          exact List.cons_ne_nil _ _
        · rw [setLoop_cons_other X p v pSet line rest hd' hh'
            (Bool.eq_false_iff.mpr hp)]
          exact List.cons_ne_nil _ _

theorem setLoop_mem (X p v : Chars) (ls : List Chars) :
    ∀ inT pSet : Bool, ∀ l ∈ setLoop X p v inT pSet ls,
      l ∈ ls ∨ l = propLine p v := by
  induction ls with
  | nil =>
    intro inT pSet l hl
    cases inT with
    | false => exact absurd hl (by simp [setLoop])
    | true =>
      cases pSet with
      | true => exact absurd hl (by simp [setLoop])
      | false =>
        right
        simpa [setLoop] using hl
  | cons line rest ih =>
    intro inT pSet l hl
    by_cases hd : isNodeDeclFor X line = true
    · rw [setLoop_cons_decl X p v inT pSet line rest hd] at hl
      rcases List.mem_cons.mp hl with h | h
      · exact Or.inl (by simp [h])
      · rcases ih true pSet l h with h2 | h2
        · exact Or.inl (List.mem_cons_of_mem line h2)
        · exact Or.inr h2
    · have hd' := Bool.eq_false_iff.mpr hd
      cases inT with
      | false =>
        rw [setLoop_cons_out X p v pSet line rest hd'] at hl
        rcases List.mem_cons.mp hl with h | h
        · exact Or.inl (by simp [h])
        · rcases ih false pSet l h with h2 | h2
          · exact Or.inl (List.mem_cons_of_mem line h2)
          · exact Or.inr h2
      | true =>
        by_cases hh : jsStartsWith (jsTrim line) ['['] = true
        · cases pSet with
          | false =>
            rw [setLoop_cons_hdr_unset X p v line rest hd' hh] at hl
            rcases List.mem_cons.mp hl with h | h
            · exact Or.inr h
            · rcases List.mem_cons.mp h with h3 | h3
              · exact Or.inl (by simp [h3])
              · rcases ih false true l h3 with h2 | h2
                · exact Or.inl (List.mem_cons_of_mem line h2)
                · exact Or.inr h2
          | true =>
            rw [setLoop_cons_hdr_set X p v line rest hd' hh] at hl
            rcases List.mem_cons.mp hl with h | h
            · exact Or.inl (by simp [h])
            · rcases ih false true l h with h2 | h2
              · exact Or.inl (List.mem_cons_of_mem line h2)
              · exact Or.inr h2
        · have hh' := Bool.eq_false_iff.mpr hh
          by_cases hp : jsStartsWith (jsTrim line) (p ++ [' ']) = true
          · rw [setLoop_cons_prop X p v pSet line rest hd' hh' hp] at hl
            rcases List.mem_cons.mp hl with h | h
            · exact Or.inr h
            · rcases ih true true l h with h2 | h2
              · exact Or.inl (List.mem_cons_of_mem line h2)
              · exact Or.inr h2
          · rw [setLoop_cons_other X p v pSet line rest hd' hh'
              (Bool.eq_false_iff.mpr hp)] at hl
            rcases List.mem_cons.mp hl with h | h
            · exact Or.inl (by simp [h])
            · rcases ih true pSet l h with h2 | h2
              · exact Or.inl (List.mem_cons_of_mem line h2)
              · exact Or.inr h2

theorem jsTrim_propLine (c : Char) (q v : Chars) (hc : isJsWs c = false) :
    ∃ r : Chars, jsTrim (propLine (c :: q) v) = (c :: q) ++ ' ' :: r := by
  have hsp : isJsWs ' ' = true := rfl
  have heq : isJsWs '=' = false := rfl
  have hL : propLine (c :: q) v = c :: (q ++ ' ' :: '=' :: ' ' :: v) := by
    simp [propLine]
  rw [jsTrim, hL, List.dropWhile_cons, if_neg (by simp [hc])]
  by_cases hv : (List.dropWhile isJsWs v.reverse).isEmpty = true
  · refine ⟨['='], ?_⟩
    simp only [List.reverse_cons, List.reverse_append, List.append_assoc,
      List.nil_append, List.cons_append, List.dropWhile_append, hv,
      List.dropWhile_cons, hsp, heq, if_true, if_false, List.dropWhile_nil,
      List.isEmpty_nil]
    simp
  · refine ⟨'=' :: ' ' :: (List.dropWhile isJsWs v.reverse).reverse, ?_⟩
    simp only [List.reverse_cons, List.reverse_append, List.append_assoc,
      List.nil_append, List.cons_append, List.dropWhile_append, hv,
      List.dropWhile_cons, hsp, heq, if_true, if_false, List.isEmpty_nil]
    simp

/-- C6, amended: setProperty is idempotent provided the property name is a
single-line token not opening a section and the value is a single line: the
property is nonempty, its first character is neither whitespace nor the `[`
that starts section headers, and neither property nor value contains a
newline. Without the newline restriction the claim fails (see the
counterexample): a value holding a newline is inserted as two lines, and the
second application rewrites the first of them and keeps the stray rest. -/
theorem setProperty_idempotent (content nodeName property value : String)
    (hp : property.data ≠ [])
    (hhead : ∀ c ∈ property.data.take 1, isJsWs c = false ∧ c ≠ '[')
    (hnp : '\n' ∉ property.data) (hnv : '\n' ∉ value.data) :
    setNodePropertyInContent
        (setNodePropertyInContent content nodeName property value)
        nodeName property value =
      setNodePropertyInContent content nodeName property value := by
  obtain ⟨c, q, hpq⟩ : ∃ c q, property.data = c :: q := by
    cases hx : property.data with
    | nil => exact absurd hx hp
    | cons a b => exact ⟨a, b, rfl⟩
  have hcmem : c ∈ property.data.take 1 := by rw [hpq]; simp
  have hc : isJsWs c = false := (hhead c hcmem).1
  have hcb : c ≠ '[' := (hhead c hcmem).2
  obtain ⟨r, hr⟩ := jsTrim_propLine c q value.data hc
  rw [← hpq] at hr
  have f3 : jsStartsWith (jsTrim (propLine property.data value.data))
      (property.data ++ [' ']) = true := by
    rw [jsStartsWith, List.isPrefixOf_iff_prefix, hr]
    refine ⟨r, ?_⟩
    simp
  have f2 : jsStartsWith (jsTrim (propLine property.data value.data))
      ['['] = false := by
    rw [jsStartsWith, hr, hpq]
    simp only [List.cons_append, List.isPrefixOf, List.isPrefixOf_nil_left,
      Bool.and_eq_false_iff]
    left
    simpa using fun h => hcb h.symm
  have f1 : isNodeDeclFor nodeName.data (propLine property.data value.data) = false :=
    isNodeDeclFor_false_of_no_bracket nodeName.data _ f2
  have hnl : '\n' ∉ propLine property.data value.data := by
    intro hmem
    rw [propLine] at hmem
    rcases List.mem_append.mp hmem with h | h
    · exact hnp h
    · rcases List.mem_cons.mp h with h | h
      · exact absurd h (by decide)
      · rcases List.mem_cons.mp h with h | h
        · exact absurd h (by decide)
        · rcases List.mem_cons.mp h with h | h
          · exact absurd h (by decide)
          · exact hnv h
  set X := nodeName.data
  set p := property.data
  set v := value.data
  have hout : (setNodePropertyInContent content nodeName property value).data =
      joinChar '\n' (setLoop X p v false false (splitChar '\n' content.data)) := rfl
  set O := setLoop X p v false false (splitChar '\n' content.data) with hO
  have hOne : O ≠ [] := by
    rw [hO]
    obtain ⟨l0, ls0, hls⟩ : ∃ l0 ls0, splitChar '\n' content.data = l0 :: ls0 := by
      cases hx : splitChar '\n' content.data with
      | nil => exact absurd hx (splitChar_ne_nil '\n' content.data)
      | cons a b => exact ⟨a, b, rfl⟩
    rw [hls]
    exact setLoop_ne_nil X p v false false l0 ls0
  have hOfree : ∀ l ∈ O, '\n' ∉ l := by
    intro l hl
    rcases setLoop_mem X p v (splitChar '\n' content.data) false false l hl with h | h
    · exact splitChar_sep_not_mem '\n' content.data l h
    · rw [h]; exact hnl
  show String.mk (joinChar '\n' (setLoop X p v false false
      (splitChar '\n' (joinChar '\n' O)))) = _
  rw [splitChar_joinChar '\n' O hOne hOfree,
    setLoop_idem X p v f1 f2 f3 (splitChar '\n' content.data) false false]
  rfl

/-- C6 counterexample: with a newline inside the value, two applications
differ — the first inserts `p = a` and a stray line `b`, the second rewrites
`p = a` to the two lines again while keeping the stray `b`. -/
theorem setProperty_not_idempotent_newline :
    setNodePropertyInContent "[node name=\"X\"]" "X" "p" "a\nb" =
      "[node name=\"X\"]\np = a\nb" ∧
    setNodePropertyInContent
        (setNodePropertyInContent "[node name=\"X\"]" "X" "p" "a\nb")
        "X" "p" "a\nb" =
      "[node name=\"X\"]\np = a\nb\nb" ∧
    ("[node name=\"X\"]\np = a\nb\nb" : String) ≠ "[node name=\"X\"]\np = a\nb" := by
  refine ⟨rfl, rfl, by decide⟩

/-- C6 witness: idempotence applied at a concrete scene, property and value,
the side conditions discharged by evaluation. -/
theorem setProperty_idempotent_witness :
    setNodePropertyInContent
        (setNodePropertyInContent "[node name=\"X\"]\nq = 1" "X" "p" "2")
        "X" "p" "2" =
      setNodePropertyInContent "[node name=\"X\"]\nq = 1" "X" "p" "2" :=
  setProperty_idempotent "[node name=\"X\"]\nq = 1" "X" "p" "2"
    (by decide) (by decide) (by decide) (by decide)

/-- JavaScript `Map.prototype.set`: update in place keeping insertion order,
else append. -/
def mapSet (k val : Chars) : List (Chars × Chars) → List (Chars × Chars)
  | [] => [(k, val)]
  | (k2, v2) :: rest =>
    if k2 = k then (k, val) :: rest else (k2, v2) :: mapSet k val rest

/-- `sections.has(sec)`. -/
def hasSection (sec : Chars) (secs : List (Chars × List (Chars × Chars))) : Bool :=
  secs.any (fun e => e.1 = sec)

/-- `sections.get(sec)?.set(k, v)`: a no-op when the section is absent. -/
def updateSection (sec k val : Chars) :
    List (Chars × List (Chars × Chars)) → List (Chars × List (Chars × Chars))
  | [] => []
  | (s, m) :: rest =>
    if s = sec then (s, mapSet k val m) :: rest
    else (s, m) :: updateSection sec k val rest

/-- The anchored section-header regex `^\[(.+)\]$` of the settings parser:
the whole line is `[inner]` with nonempty inner. -/
def matchSectionHdr (l : Chars) : Option Chars :=
  if l.head? = some '[' ∧ l.getLast? = some ']' ∧ 3 ≤ l.length then
    some (l.drop 1).dropLast
  else none

/-- The anchored key-value regex `^([^=]+)=(.*)$`: a nonempty run before the
first `=`, and everything after it. -/
def matchKV (l : Chars) : Option (Chars × Chars) :=
  if l.takeWhile (fun c => !(c = '=')) ≠ [] ∧
      l.dropWhile (fun c => !(c = '=')) ≠ [] then
    some (l.takeWhile (fun c => !(c = '=')),
      (l.dropWhile (fun c => !(c = '='))).tail)
  else none

/-- One line of `parseProjectSettingsContent`: state is (current section,
sections map). -/
def psStep (st : Chars × List (Chars × List (Chars × Chars))) (rawLine : Chars) :
    Chars × List (Chars × List (Chars × Chars)) :=
  let line := jsTrim rawLine
  if line = [] ∨ line.head? = some ';' then st
  else
    match matchSectionHdr line with
    | some sec =>
      (sec, if hasSection sec st.2 then st.2 else st.2 ++ [(sec, [])])
    | none =>
      match matchKV line with
      | some (k, v) => (st.1, updateSection st.1 (jsTrim k) (jsTrim v) st.2)
      | none => st

/-- The settings document: `sections` is the insertion-ordered map of maps,
`raw` the input text. -/
structure PSettings where
  sections : List (Chars × List (Chars × Chars))
  raw : Chars

/-- `parseProjectSettingsContent` (project-settings.ts, lines 28–59), a total
function: the global section `""` is installed first and the lines folded. -/
def parseProjectSettingsContentL (content : Chars) : PSettings :=
  { sections :=
      ((splitChar '\n' content).foldl psStep ([], [([], [])])).2,
    raw := content }

def parseProjectSettingsContent (content : String) : PSettings :=
  parseProjectSettingsContentL content.data

theorem mapSet_ne_nil (k val : Chars) (m : List (Chars × Chars)) :
    mapSet k val m ≠ [] := by
  cases m with
  | nil => simp [mapSet]
  | cons e rest =>
    obtain ⟨k2, v2⟩ := e
    rw [mapSet]
    by_cases h : k2 = k
    · rw [if_pos h]; exact List.cons_ne_nil _ _
    · rw [if_neg h]; exact List.cons_ne_nil _ _

theorem hasSection_updateSection (sec0 sec k val : Chars)
    (secs : List (Chars × List (Chars × Chars))) :
    hasSection sec0 (updateSection sec k val secs) = hasSection sec0 secs := by
  induction secs with
  | nil => rfl
  | cons e rest ih =>
    obtain ⟨s, m⟩ := e
    rw [updateSection]
    by_cases h : s = sec
    · rw [if_pos h]
      simp [hasSection, h]
    · rw [if_neg h]
      simp only [hasSection, List.any_cons] at ih ⊢
      rw [ih]

theorem hasSection_psStep (sec0 : Chars)
    (st : Chars × List (Chars × List (Chars × Chars))) (rawLine : Chars)
    (h : hasSection sec0 st.2 = true) :
    hasSection sec0 (psStep st rawLine).2 = true := by
  rw [psStep]
  by_cases h1 : jsTrim rawLine = [] ∨ (jsTrim rawLine).head? = some ';'
  · rw [if_pos h1]; exact h
  · rw [if_neg h1]
    cases hm : matchSectionHdr (jsTrim rawLine) with
    | some sec =>
      by_cases h2 : hasSection sec st.2 = true
      · simpa [h2] using h
      · have h2' := Bool.eq_false_iff.mpr h2
        simp only [h2', Bool.false_eq_true, if_false]
        simp only [hasSection, List.any_append] at h ⊢
        simp [h]
    | none =>
      cases hk : matchKV (jsTrim rawLine) with
      | some kv => simpa [hasSection_updateSection] using h
      | none => exact h

theorem hasSection_foldl (sec0 : Chars) (ls : List Chars)
    (st : Chars × List (Chars × List (Chars × Chars)))
    (h : hasSection sec0 st.2 = true) :
    hasSection sec0 (ls.foldl psStep st).2 = true := by
  induction ls generalizing st with
  | nil => exact h
  | cons l rest ih =>
    rw [List.foldl_cons]
    exact ih (psStep st l) (hasSection_psStep sec0 st l h)

/-- Scan for the unanchored regex `lit([^stop]*)stop extra` (e.g.
`name="([^"]*)"` with `lit = name="`, `stop = '"'`, `extra = []`, or
`instance=ExtResource\("([^"]*)"\)` with `extra = [')']`): leftmost position
where the literal is followed by a stop-free capture, the stop character and
the extra literal; fuelled by the text length. -/
def scanCapF (lit : Chars) (stop : Char) (extra : Chars) : Nat → Chars → Option Chars
  | 0, _ => none
  | _ + 1, [] => none
  | fuel + 1, c :: rest =>
    if lit.isPrefixOf (c :: rest) = true ∧
        (List.drop lit.length (c :: rest)).dropWhile (fun x => !(x = stop)) ≠ [] ∧
        extra.isPrefixOf (((List.drop lit.length (c :: rest)).dropWhile
          (fun x => !(x = stop))).tail) = true then
      some ((List.drop lit.length (c :: rest)).takeWhile (fun x => !(x = stop)))
    else scanCapF lit stop extra fuel rest

def scanCap (lit : Chars) (stop : Char) (extra s : Chars) : Option Chars :=
  scanCapF lit stop extra s.length s

/-- Scan for the unanchored regex `lit(\d+)`: leftmost position where the
literal is followed by at least one digit; the maximal digit run is the
capture. -/
def scanNumF (lit : Chars) : Nat → Chars → Option Nat
  | 0, _ => none
  | _ + 1, [] => none
  | fuel + 1, c :: rest =>
    if lit.isPrefixOf (c :: rest) = true ∧
        (List.drop lit.length (c :: rest)).takeWhile Char.isDigit ≠ [] then
      some (natOfDigits ((List.drop lit.length (c :: rest)).takeWhile Char.isDigit))
    else scanNumF lit fuel rest

def scanNum (lit s : Chars) : Option Nat := scanNumF lit s.length s

/-- JS `\w` (the regexes only meet ASCII). -/
def isWordChar (c : Char) : Bool := c.isAlpha || c.isDigit || c = '_'

/-- The anchored property regex `^(\w+)\s*=\s*(.+)$` of the scene parser.
When everything after the `=` is whitespace, the backtracking `\s*` yields
its last character to the mandatory `(.+)`. -/
def matchProp (l : Chars) : Option (Chars × Chars) :=
  let k := l.takeWhile isWordChar
  let r1 := (l.drop k.length).dropWhile isJsWs
  if k ≠ [] ∧ r1.head? = some '=' then
    let t := r1.tail
    let v := t.dropWhile isJsWs
    if v ≠ [] then some (k, v)
    else
      match t.getLast? with
      | some c => some (k, [c])
      | none => none
  else none

/-- `groups=...` attribute body handling of the node branch: split on commas,
trim, strip every quote, drop empties. -/
def parseGroups (inner : Chars) : List Chars :=
  ((splitChar ',' inner).map
    (fun g => (jsTrim g).filter (fun c => !(c = '"')))).filter
    (fun g => !g.isEmpty)

structure TscnHeaderS where
  format : Nat
  loadSteps : Nat
  uid : Option Chars

structure ExtResS where
  type : Chars
  uid : Option Chars
  path : Chars
  id : Chars

structure SubResS where
  type : Chars
  id : Chars
  properties : List (Chars × Chars)

/-- `SceneNodeInfo`; `inst` renders the source's `instance` field. -/
structure SceneNodeS where
  name : Chars
  type : Option Chars
  parent : Option Chars
  inst : Option Chars
  properties : List (Chars × Chars)
  groups : Option (List Chars)

/-- `SignalConnection`; `src`/`dst` render the source's `from`/`to`. -/
structure ConnS where
  signal : Chars
  src : Chars
  dst : Chars
  method : Chars
  flags : Option Nat

inductive SecTag where
  | shdr | sext | ssub | snode | sconn

/-- The loop state of `parseSceneContent`. -/
structure SceneAcc where
  header : TscnHeaderS
  extResources : List ExtResS
  subResources : List SubResS
  nodes : List SceneNodeS
  connections : List ConnS
  currentSection : Option SecTag
  currentNode : Option SceneNodeS
  currentSub : Option SubResS

/-- The "save previous node/sub_resource" step run at each section header and
after the loop. -/
def flushAcc (acc : SceneAcc) : SceneAcc :=
  { acc with
    nodes := acc.nodes ++ (match acc.currentNode with | some n => [n] | none => []),
    subResources := acc.subResources ++
      (match acc.currentSub with | some s => [s] | none => []),
    currentNode := none, currentSub := none }

/-- One line of `parseSceneContent` (scene-parser.ts.bak, lines 72–184). -/
def sceneStep (acc : SceneAcc) (rawLine : Chars) : SceneAcc :=
  let line := jsTrim rawLine
  if line = [] ∨ line.head? = some ';' then acc
  else if jsStartsWith line ['['] = true then
    let a := flushAcc acc
    if jsStartsWith line "[gd_scene".data = true then
      { a with
        currentSection := some SecTag.shdr,
        header :=
          { format := (scanNum "format=".data line).getD a.header.format,
            loadSteps := (scanNum "load_steps=".data line).getD a.header.loadSteps,
            uid := match scanCap "uid=\"".data '"' [] line with
                   | some u => some u
                   | none => a.header.uid } }
    else if jsStartsWith line "[ext_resource".data = true then
      { a with
        currentSection := some SecTag.sext,
        extResources := a.extResources ++
          (match scanCap "type=\"".data '"' [] line,
              scanCap "path=\"".data '"' [] line,
              scanCap " id=\"".data '"' [] line with
           | some t, some p, some i =>
             [{ type := t, uid := scanCap "uid=\"".data '"' [] line,
                path := p, id := i }]
           | _, _, _ => []) }
    else if jsStartsWith line "[sub_resource".data = true then
      { a with
        currentSection := some SecTag.ssub,
        currentSub :=
          match scanCap "type=\"".data '"' [] line,
              scanCap " id=\"".data '"' [] line with
          | some t, some i => some { type := t, id := i, properties := [] }
          | _, _ => none }
    else if jsStartsWith line "[node".data = true then
      { a with
        currentSection := some SecTag.snode,
        currentNode :=
          match scanCap "name=\"".data '"' [] line with
          | some nm =>
            some
              { name := nm,
                type := scanCap "type=\"".data '"' [] line,
                parent := scanCap "parent=\"".data '"' [] line,
                inst := scanCap "instance=ExtResource(\"".data '"' [')'] line,
                properties := [],
                groups := match scanCap "groups=[".data ']' [] line with
                          | some inner => some (parseGroups inner)
                          | none => none }
          | none => none }
    else if jsStartsWith line "[connection".data = true then
      { a with
        currentSection := some SecTag.sconn,
        connections := a.connections ++
          (match scanCap "signal=\"".data '"' [] line,
              scanCap "from=\"".data '"' [] line,
              scanCap "to=\"".data '"' [] line,
              scanCap "method=\"".data '"' [] line with
           | some sg, some fr, some t2, some me =>
             [{ signal := sg, src := fr, dst := t2, method := me,
                flags := scanNum "flags=".data line }]
           | _, _, _, _ => []) }
    else a
  else
    match matchProp line with
    | some (k, v) =>
      match acc.currentSection with
      | some SecTag.snode =>
        match acc.currentNode with
        | some n =>
          { acc with
              currentNode :=
              some { n with properties := mapSet k v n.properties } }
        | none => acc
      | some SecTag.ssub =>
        match acc.currentSub with
        | some sR =>
          { acc with
              currentSub :=
              some { sR with properties := mapSet k v sR.properties } }
        | none => acc
      | _ => acc
    | none => acc

structure ParsedSceneS where
  header : TscnHeaderS
  extResources : List ExtResS
  subResources : List SubResS
  nodes : List SceneNodeS
  connections : List ConnS
  raw : Chars

/-- `parseSceneContent` (scene-parser.ts.bak, lines 72–184), a total
function. -/
def parseSceneContentL (content : Chars) : ParsedSceneS :=
  let acc0 : SceneAcc :=
    { header := { format := 3, loadSteps := 1, uid := none },
      extResources := [], subResources := [], nodes := [], connections := [],
      currentSection := none, currentNode := none, currentSub := none }
  let fin := flushAcc ((splitChar '\n' content).foldl sceneStep acc0)
  { header := fin.header, extResources := fin.extResources,
    subResources := fin.subResources, nodes := fin.nodes,
    connections := fin.connections, raw := content }

def parseSceneContent (content : String) : ParsedSceneS :=
  parseSceneContentL content.data

/-- C7: both parsers are total functions of the input text (the embedding is
a total Lean function mirroring every partial JS step with Option values, so
no input throws); malformed or incomplete declarations are dropped silently
(a node header without a name, a connection without a method and a malformed
section header all produce no entry), the parsed documents carry the raw
input, and the settings document always contains the global section `""`. -/
theorem parsers_total_and_global_section (content : String) :
    hasSection [] (parseProjectSettingsContent content).sections = true ∧
    (parseProjectSettingsContent content).raw = content.data ∧
    (parseSceneContent content).raw = content.data ∧
    ((parseSceneContent
        "[node type=\"N\"]\nfoo = 1\n[connection signal=\"s\" from=\"A\" to=\"B\"]").nodes = [] ∧
      (parseSceneContent
        "[node type=\"N\"]\nfoo = 1\n[connection signal=\"s\" from=\"A\" to=\"B\"]").connections = []) ∧
    (parseProjectSettingsContent "[]\nnokey\n;c").sections = [([], [])] := by
  refine ⟨?_, rfl, rfl, ⟨rfl, rfl⟩, rfl⟩
  show hasSection []
      ((splitChar '\n' content.data).foldl psStep ([], [([], [])])).2 = true
  exact hasSection_foldl [] _ _ rfl

/-- C9: the two-line scenario parses to exactly one node named Root, with no
parent and type Node2D. -/
theorem parse_scene_scenario :
    (parseSceneContent
        "[gd_scene format=3]\n\n[node name=\"Root\" type=\"Node2D\"]\n").nodes =
      [{ name := "Root".data, type := some "Node2D".data, parent := none,
         inst := none, properties := [], groups := none }] := rfl

/-- The line loop of `setSettingInContent` (project-settings.ts, lines
79–130): `hdr` is `[section]`, `kv` is `key=value`, `keyPre` is `key=`. The
JS mutates `inSection`/`keySet`/`sectionFound`; here they are the three Bool
arguments and each mutation path is flattened into its own branch (a header
line falls through to the key test and the final push with the updated
state). The base case renders the two post-loop appends. -/
def headerShape (l : Chars) : Bool :=
  jsStartsWith (jsTrim l) ['['] && jsEndsWith (jsTrim l) [']']

def hdrOf (sec : Chars) : Chars := '[' :: (sec ++ [']'])

def kvOf (key value : Chars) : Chars := key ++ '=' :: value

def keyPreOf (key : Chars) : Chars := key ++ ['=']

def setSettingLoop (hdr kv keyPre : Chars) : Bool → Bool → Bool → List Chars → List Chars
  | inS, kSet, sFound, [] =>
    (if inS = true ∧ kSet = false then [kv] else []) ++
      (if sFound = false then [] :: hdr :: [kv] else [])
  | inS, kSet, sFound, line :: rest =>
    if headerShape line = true then
      if jsTrim line = hdr then
        if inS = true ∧ kSet = false then
          if jsStartsWith (jsTrim line) keyPre = true then
            kv :: kv :: setSettingLoop hdr kv keyPre true true true rest
          else
            kv :: line :: setSettingLoop hdr kv keyPre true true true rest
        else
          if jsStartsWith (jsTrim line) keyPre = true then
            kv :: setSettingLoop hdr kv keyPre true true true rest
          else
            line :: setSettingLoop hdr kv keyPre true kSet true rest
      else
        if inS = true ∧ kSet = false then
          kv :: line :: setSettingLoop hdr kv keyPre false true sFound rest
        else
          line :: setSettingLoop hdr kv keyPre false kSet sFound rest
    else if inS = true ∧ jsStartsWith (jsTrim line) keyPre = true then
      kv :: setSettingLoop hdr kv keyPre inS true sFound rest
    else
      line :: setSettingLoop hdr kv keyPre inS kSet sFound rest

/-- `setSettingInContent` on character lists. -/
def setSettingInContentL (content path value : Chars) : Chars :=
  match splitChar '/' path with
  | [] => content
  | [_] => content
  | sec :: p2 :: ps =>
    joinChar '\n'
      (setSettingLoop (hdrOf sec)
        (kvOf (joinChar '/' (p2 :: ps)) value)
        (keyPreOf (joinChar '/' (p2 :: ps)))
        false false false (splitChar '\n' content))

def setSettingInContent (content path value : String) : String :=
  String.mk (setSettingInContentL content.data path.data value.data)

theorem keyPre_not_at_bracket (t : Chars) (c : Char) (kp : Chars)
    (ht : jsStartsWith t ['['] = true) (hc : c ≠ '[') :
    jsStartsWith t (c :: kp) = false := by
  cases t with
  | nil => simp [jsStartsWith, List.isPrefixOf] at ht
  | cons x xs =>
    simp only [jsStartsWith, List.isPrefixOf, Bool.and_eq_true, beq_iff_eq] at ht
    simp only [jsStartsWith, List.isPrefixOf, Bool.and_eq_false_iff]
    left
    simp [← ht.1, hc]

theorem ssl_out_push (hdr kv keyPre : Chars) (kSet sF : Bool) (line : Chars)
    (rest : List Chars) (h : headerShape line = false) :
    setSettingLoop hdr kv keyPre false kSet sF (line :: rest) =
      line :: setSettingLoop hdr kv keyPre false kSet sF rest := by
  rw [setSettingLoop, if_neg (by rw [h]; exact Bool.false_ne_true),
    if_neg (by simp)]

theorem ssl_hdr_other_out (hdr kv keyPre : Chars) (kSet sF : Bool) (line : Chars)
    (rest : List Chars) (h : headerShape line = true) (hne : jsTrim line ≠ hdr) :
    setSettingLoop hdr kv keyPre false kSet sF (line :: rest) =
      line :: setSettingLoop hdr kv keyPre false kSet sF rest := by
  rw [setSettingLoop, if_pos h, if_neg hne, if_neg (by simp)]

theorem ssl_hdr_match_out (hdr kv : Chars) (c : Char) (kp : Chars) (kSet sF : Bool)
    (line : Chars) (rest : List Chars) (h : headerShape line = true)
    (heq : jsTrim line = hdr) (hhb : jsStartsWith (jsTrim line) ['['] = true)
    (hc : c ≠ '[') :
    setSettingLoop hdr kv (c :: kp) false kSet sF (line :: rest) =
      line :: setSettingLoop hdr kv (c :: kp) true kSet true rest := by
  rw [setSettingLoop, if_pos h, if_pos heq, if_neg (by simp),
    if_neg (by rw [keyPre_not_at_bracket (jsTrim line) c kp hhb hc]; exact Bool.false_ne_true)]

theorem ssl_in_key (hdr kv keyPre : Chars) (kSet sF : Bool) (line : Chars)
    (rest : List Chars) (h : headerShape line = false)
    (hk : jsStartsWith (jsTrim line) keyPre = true) :
    setSettingLoop hdr kv keyPre true kSet sF (line :: rest) =
      kv :: setSettingLoop hdr kv keyPre true true sF rest := by
  rw [setSettingLoop, if_neg (by rw [h]; exact Bool.false_ne_true), if_pos ⟨rfl, hk⟩]

theorem ssl_in_other (hdr kv keyPre : Chars) (kSet sF : Bool) (line : Chars)
    (rest : List Chars) (h : headerShape line = false)
    (hk : jsStartsWith (jsTrim line) keyPre = false) :
    setSettingLoop hdr kv keyPre true kSet sF (line :: rest) =
      line :: setSettingLoop hdr kv keyPre true kSet sF rest := by
  rw [setSettingLoop, if_neg (by rw [h]; exact Bool.false_ne_true),
    if_neg (by rw [hk]; simp)]

theorem ssl_in_exit_unset (hdr kv keyPre : Chars) (sF : Bool) (line : Chars)
    (rest : List Chars) (h : headerShape line = true) (hne : jsTrim line ≠ hdr) :
    setSettingLoop hdr kv keyPre true false sF (line :: rest) =
      kv :: line :: setSettingLoop hdr kv keyPre false true sF rest := by
  rw [setSettingLoop, if_pos h, if_neg hne, if_pos ⟨rfl, rfl⟩]

theorem ssl_pre_pass (hdr kv keyPre : Chars) (kSet sF : Bool)
    (pre rest : List Chars)
    (h : ∀ l ∈ pre, headerShape l = true → jsTrim l ≠ hdr) :
    setSettingLoop hdr kv keyPre false kSet sF (pre ++ rest) =
      pre ++ setSettingLoop hdr kv keyPre false kSet sF rest := by
  induction pre with
  | nil => rfl
  | cons line pre2 ih =>
    have hline := h line (List.mem_cons_self line pre2)
    by_cases hs : headerShape line = true
    · rw [List.cons_append, ssl_hdr_other_out hdr kv keyPre kSet sF line _ hs (hline hs),
        ih (fun l hl => h l (List.mem_cons_of_mem line hl)), List.cons_append]
    · rw [List.cons_append, ssl_out_push hdr kv keyPre kSet sF line _
        (Bool.eq_false_iff.mpr hs),
        ih (fun l hl => h l (List.mem_cons_of_mem line hl)), List.cons_append]

theorem ssl_mid_pass (hdr kv keyPre : Chars) (kSet sF : Bool)
    (mid rest : List Chars)
    (h : ∀ l ∈ mid, headerShape l = false ∧
      jsStartsWith (jsTrim l) keyPre = false) :
    setSettingLoop hdr kv keyPre true kSet sF (mid ++ rest) =
      mid ++ setSettingLoop hdr kv keyPre true kSet sF rest := by
  induction mid with
  | nil => rfl
  | cons line mid2 ih =>
    have hline := h line (List.mem_cons_self line mid2)
    rw [List.cons_append, ssl_in_other hdr kv keyPre kSet sF line _ hline.1 hline.2,
      ih (fun l hl => h l (List.mem_cons_of_mem line hl)), List.cons_append]

theorem ssl_no_section (hdr kv keyPre : Chars) (ls : List Chars)
    (h : ∀ l ∈ ls, headerShape l = true → jsTrim l ≠ hdr) :
    setSettingLoop hdr kv keyPre false false false ls =
      ls ++ [] :: hdr :: [kv] := by
  have h2 := ssl_pre_pass hdr kv keyPre false false ls [] h
  rw [List.append_nil] at h2
  rw [h2]
  rfl

/-- C8: set(text, path, value) is a no-op when the path has fewer than two
`/`-separated segments; otherwise, writing key := the path after its first
segment, it replaces the first `key=`-led line inside the `[section]` block in
place, or appends `key=value` at the end of that block when the key is absent
(immediately before the next section header, or at EOF when the section is
last), or appends a blank line, the `[section]` header and `key=value` at EOF
when the section is absent — in particular the physics_fps scenario of the
claim. -/
theorem setSetting_spec (content path value : String) :
    ((splitChar '/' path.data).length < 2 →
      setSettingInContent content path value = content) ∧
    (∀ sec p2 : Chars, ∀ ps : List Chars,
      splitChar '/' path.data = sec :: p2 :: ps →
      (∀ c ∈ (keyPreOf (joinChar '/' (p2 :: ps))).take 1, c ≠ '[') →
      ((∀ pre mid post : List Chars, ∀ hl kl : Chars,
        splitChar '\n' content.data = pre ++ hl :: (mid ++ kl :: post) →
        (∀ l ∈ pre, headerShape l = true → jsTrim l ≠ hdrOf sec) →
        headerShape hl = true →
        jsTrim hl = hdrOf sec →
        (∀ l ∈ mid, headerShape l = false ∧
          jsStartsWith (jsTrim l) (keyPreOf (joinChar '/' (p2 :: ps))) = false) →
        headerShape kl = false →
        jsStartsWith (jsTrim kl) (keyPreOf (joinChar '/' (p2 :: ps))) = true →
        (setSettingInContent content path value).data =
          joinChar '\n' (pre ++ hl :: (mid ++
            kvOf (joinChar '/' (p2 :: ps)) value.data ::
            setSettingLoop (hdrOf sec) (kvOf (joinChar '/' (p2 :: ps)) value.data)
              (keyPreOf (joinChar '/' (p2 :: ps))) true true true post))) ∧
      (∀ pre mid post : List Chars, ∀ hl h2 : Chars,
        splitChar '\n' content.data = pre ++ hl :: (mid ++ h2 :: post) →
        (∀ l ∈ pre, headerShape l = true → jsTrim l ≠ hdrOf sec) →
        headerShape hl = true →
        jsTrim hl = hdrOf sec →
        (∀ l ∈ mid, headerShape l = false ∧
          jsStartsWith (jsTrim l) (keyPreOf (joinChar '/' (p2 :: ps))) = false) →
        headerShape h2 = true →
        jsTrim h2 ≠ hdrOf sec →
        (setSettingInContent content path value).data =
          joinChar '\n' (pre ++ hl :: (mid ++
            kvOf (joinChar '/' (p2 :: ps)) value.data :: h2 ::
            setSettingLoop (hdrOf sec) (kvOf (joinChar '/' (p2 :: ps)) value.data)
              (keyPreOf (joinChar '/' (p2 :: ps))) false true true post))) ∧
      (∀ pre mid : List Chars, ∀ hl : Chars,
        splitChar '\n' content.data = pre ++ hl :: mid →
        (∀ l ∈ pre, headerShape l = true → jsTrim l ≠ hdrOf sec) →
        headerShape hl = true →
        jsTrim hl = hdrOf sec →
        (∀ l ∈ mid, headerShape l = false ∧
          jsStartsWith (jsTrim l) (keyPreOf (joinChar '/' (p2 :: ps))) = false) →
        (setSettingInContent content path value).data =
          joinChar '\n' (pre ++ hl :: (mid ++
            [kvOf (joinChar '/' (p2 :: ps)) value.data]))) ∧
      ((∀ l ∈ splitChar '\n' content.data,
          headerShape l = true → jsTrim l ≠ hdrOf sec) →
        (setSettingInContent content path value).data =
          joinChar '\n' (splitChar '\n' content.data ++
            [] :: hdrOf sec :: [kvOf (joinChar '/' (p2 :: ps)) value.data])))) ∧
    setSettingInContent "[application]\nconfig/name=\"G\""
        "physics/common/physics_fps" "120" =
      "[application]\nconfig/name=\"G\"\n\n[physics]\ncommon/physics_fps=120" := by
  refine ⟨?_, ?_, rfl⟩
  · intro hlen
    cases hp : splitChar '/' path.data with
    | nil => exact absurd hp (splitChar_ne_nil '/' path.data)
    | cons a l =>
      cases l with
      | nil =>
        show String.mk (setSettingInContentL content.data path.data value.data) = content
        rw [setSettingInContentL, hp]
      | cons b l2 =>
        rw [hp, List.length_cons, List.length_cons] at hlen
        omega
  · intro sec p2 ps hpath hkp
    obtain ⟨c, kp, hckp⟩ : ∃ c kp, keyPreOf (joinChar '/' (p2 :: ps)) = c :: kp := by
      cases hx : keyPreOf (joinChar '/' (p2 :: ps)) with
      | nil =>
        exact absurd hx (by rw [keyPreOf]; exact (by simp : _ ++ ['='] ≠ []))
      | cons a b => exact ⟨a, b, rfl⟩
    have hc : c ≠ '[' := by
      refine hkp c ?_
      rw [hckp]
      simp
    have hrun : (setSettingInContent content path value).data =
        joinChar '\n' (setSettingLoop (hdrOf sec)
          (kvOf (joinChar '/' (p2 :: ps)) value.data)
          (keyPreOf (joinChar '/' (p2 :: ps))) false false false
          (splitChar '\n' content.data)) := by
      show setSettingInContentL content.data path.data value.data = _
      rw [setSettingInContentL, hpath]
    refine ⟨?_, ?_, ?_, ?_⟩
    · intro pre mid post hl kl hsplit hpre hhl1 hhl2 hmid hkl1 hkl2
      rw [hrun, hsplit, ssl_pre_pass _ _ _ false false pre _ hpre, hckp,
        ssl_hdr_match_out _ _ c kp false false hl _ hhl1 hhl2
          (by rw [hhl2, hdrOf]; simp [jsStartsWith, List.isPrefixOf]) hc,
        ← hckp, ssl_mid_pass _ _ _ false true mid _ hmid,
        ssl_in_key _ _ _ false true kl _ hkl1 hkl2]
    · intro pre mid post hl h2 hsplit hpre hhl1 hhl2 hmid hh21 hh22
      rw [hrun, hsplit, ssl_pre_pass _ _ _ false false pre _ hpre, hckp,
        ssl_hdr_match_out _ _ c kp false false hl _ hhl1 hhl2
          (by rw [hhl2, hdrOf]; simp [jsStartsWith, List.isPrefixOf]) hc,
        ← hckp, ssl_mid_pass _ _ _ false true mid _ hmid,
        ssl_in_exit_unset _ _ _ true h2 _ hh21 hh22]
    · intro pre mid hl hsplit hpre hhl1 hhl2 hmid
      rw [hrun, hsplit, ssl_pre_pass _ _ _ false false pre _ hpre, hckp,
        ssl_hdr_match_out _ _ c kp false false hl _ hhl1 hhl2
          (by rw [hhl2, hdrOf]; simp [jsStartsWith, List.isPrefixOf]) hc,
        ← hckp]
      have hmid2 := ssl_mid_pass (hdrOf sec)
        (kvOf (joinChar '/' (p2 :: ps)) value.data)
        (keyPreOf (joinChar '/' (p2 :: ps))) false true mid [] hmid
      rw [List.append_nil] at hmid2
      rw [hmid2]
      rfl
    · intro hall
      rw [hrun, ssl_no_section _ _ _ _ hall]

/-- C8 witness: the setSetting theorem applied concretely — replacing an
existing physics_fps line in place, and appending a fresh `[physics]` block to
a text without one. -/
theorem setSetting_spec_witness :
    (setSettingInContent "[physics]\ncommon/physics_fps=60\n\n[display]\nw=1"
        "physics/common/physics_fps" "120").data =
      joinChar '\n' ([] ++ "[physics]".data :: ([] ++
        kvOf (joinChar '/' ("common".data :: ["physics_fps".data])) ("120" : String).data ::
        setSettingLoop (hdrOf ("physics" : String).data)
          (kvOf (joinChar '/' ("common".data :: ["physics_fps".data])) ("120" : String).data)
          (keyPreOf (joinChar '/' ("common".data :: ["physics_fps".data])))
          true true true [[], "[display]".data, "w=1".data])) ∧
    (setSettingInContent "[application]\nconfig/name=\"G\""
        "physics/common/physics_fps" "120").data =
      joinChar '\n' (splitChar '\n'
          ("[application]\nconfig/name=\"G\"" : String).data ++
        [] :: hdrOf ("physics" : String).data ::
          [kvOf (joinChar '/' ("common".data :: ["physics_fps".data])) ("120" : String).data]) :=
  ⟨((setSetting_spec "[physics]\ncommon/physics_fps=60\n\n[display]\nw=1"
        "physics/common/physics_fps" "120").2.1
      "physics".data "common".data ["physics_fps".data] (by decide) (by decide)).1
      [] [] [[], "[display]".data, "w=1".data]
      "[physics]".data "common/physics_fps=60".data
      (by decide) (by decide) (by decide) (by decide) (by decide) (by decide)
      (by decide),
   ((setSetting_spec "[application]\nconfig/name=\"G\""
        "physics/common/physics_fps" "120").2.1
      "physics".data "common".data ["physics_fps".data] (by decide) (by decide)).2.2.2
      (by decide)⟩
